import Mathlib



/-!
Verification development for `src/peft/tuners/lora/dora.py` (DoRA:
weight-decomposed low-rank adaptation layers).

Tensors are shallowly embedded as a shape (list of dimension sizes) plus a
flat row-major data list, exactly the layout PyTorch uses for contiguous
tensors.  All scalar arithmetic is parametric in the scalar type so the same
definitions run over an exact field (for executable checks), over the reals
(for statements about square roots), and over forward-mode dual numbers (for
statements about gradient flow / `detach`).  The square-root primitive of
`torch.norm` is passed in as an explicit function argument, and autograd's
`detach` is likewise passed in (it is the identity on values; on dual numbers
it zeroes the derivative component).
-/


/-! ### The embedding: index arithmetic, tensors, operators, the DoRA layers -/

/-- Row-major flat index of a multi-index `ix` into a tensor of shape `s`. -/
def flatIdx : List Nat → List Nat → Nat
  | _, [] => 0
  | [], _ => 0
  | _ :: s, i :: ix => i * s.prod + flatIdx s ix

/-- Inverse of `flatIdx`: recover the multi-index of flat position `n` in
shape `s`. -/
def unflatten : List Nat → Nat → List Nat
  | [], _ => []
  | _ :: s, n => n / s.prod :: unflatten s (n % s.prod)

/-- `ix` is a within-bounds multi-index for shape `s`. -/
def validIdx : List Nat → List Nat → Bool
  | [], [] => true
  | d :: s, i :: ix => decide (i < d) && validIdx s ix
  | _, _ => false

/-- A tensor: dimension sizes plus flat row-major data, as in a contiguous
PyTorch tensor. -/
structure Tensor (α : Type) where
  shape : List Nat
  data : List α
deriving DecidableEq

namespace Tensor

variable {α : Type}

/-- Number of elements according to the shape. -/
def numel (t : Tensor α) : Nat := t.shape.prod

/-- The data list actually has as many entries as the shape promises. -/
def WF (t : Tensor α) : Prop := t.data.length = t.numel

/-- Element at a multi-index (0 outside the data, like a padded read). -/
def get [Zero α] (t : Tensor α) (ix : List Nat) : α :=
  t.data.getD (flatIdx t.shape ix) 0

/-- Build a tensor of shape `s` from an index function, materialized in
row-major order. -/
def ofFn (s : List Nat) (f : List Nat → α) : Tensor α :=
  ⟨s, (List.range s.prod).map fun n => f (unflatten s n)⟩

/-- Map a scalar function over all elements (shape unchanged). -/
def map (f : α → α) (t : Tensor α) : Tensor α := ⟨t.shape, t.data.map f⟩

/-- `Tensor.view` / `Tensor.reshape`: reinterpret the flat data under a new
shape.  Succeeds exactly when the element counts agree, as in PyTorch (our
tensors are always contiguous, so `view` and `reshape` coincide). -/
def view (t : Tensor α) (s : List Nat) : Option (Tensor α) :=
  if s.prod = t.shape.prod then some ⟨s, t.data⟩ else none

/-- `torch.transpose(t, 0, 1)` (equally written `t.transpose(1, 0)` in the
source): swap the first two axes.  Only ever applied to tensors with at
least two axes in the source; returned unchanged below two axes. -/
def transpose01 [Zero α] (t : Tensor α) : Tensor α :=
  match t.shape with
  | d0 :: d1 :: rest =>
    ofFn (d1 :: d0 :: rest) fun ix =>
      match ix with
      | j :: i :: r => t.get (i :: j :: r)
      | _ => 0
  | _ => t

end Tensor

/-- `transpose(weight, fan_in_fan_out)` from `peft.utils.other`: transpose
the weight iff the flag is set. -/
def ptranspose {α : Type} [Zero α] (fan_in_fan_out : Bool) (w : Tensor α) :
    Tensor α :=
  if fan_in_fan_out then w.transpose01 else w

/-- Combine one pair of aligned dimension sizes under NumPy/PyTorch
broadcasting. -/
def bdim (x y : Nat) : Option Nat :=
  if x = y then some x else if x = 1 then some y else if y = 1 then some x
  else none

/-- Broadcast two reversed shape lists (so alignment is at the head). -/
def bcastRev : List Nat → List Nat → Option (List Nat)
  | [], ys => some ys
  | xs, [] => some xs
  | x :: xs, y :: ys => do
    let d ← bdim x y
    let rest ← bcastRev xs ys
    pure (d :: rest)

/-- The broadcast result shape of two shapes (right-aligned), when they are
compatible. -/
def bcast2 (a b : List Nat) : Option (List Nat) :=
  (bcastRev a.reverse b.reverse).map List.reverse

/-- Index adjustment for reading a broadcast operand: keep only the trailing
coordinates and clamp size-1 axes to position 0. -/
def bIndex (shape ix : List Nat) : List Nat :=
  List.zipWith (fun d i => if d = 1 then 0 else i) shape
    (ix.drop (ix.length - shape.length))

/-- Read a tensor at an index of the (larger) broadcast result shape. -/
def Tensor.bget {α : Type} [Zero α] (t : Tensor α) (ix : List Nat) : α :=
  t.get (bIndex t.shape ix)

/-- Elementwise binary operation with broadcasting; fails on incompatible
shapes, as the tensor library does. -/
def ewise {α : Type} [Zero α] (f : α → α → α) (a b : Tensor α) :
    Option (Tensor α) :=
  (bcast2 a.shape b.shape).map fun s =>
    Tensor.ofFn s fun ix => f (a.bget ix) (b.bget ix)

/-- 2-D matrix multiplication `a @ b`. -/
def mm {α : Type} [Zero α] [Add α] [Mul α] (a b : Tensor α) :
    Option (Tensor α) :=
  match a.shape, b.shape with
  | [m, k], [k2, n] =>
    if k2 = k then
      some (Tensor.ofFn [m, n] fun ix =>
        match ix with
        | [i, j] => (((List.range k).map fun l => a.get [i, l] * b.get [l, j])).sum
        | _ => 0)
    else none
  | _, _ => none

/-- `F.linear(x, w)` = `x @ w.transpose(0, 1)`, modeled for 2-D inputs (the
only use in the source; LoRA's `lora_A`/`lora_B` linear modules carry no
bias). -/
def linearF {α : Type} [Zero α] [Add α] [Mul α] (x w : Tensor α) :
    Option (Tensor α) :=
  match x.shape, w.shape with
  | [n, k], [m, k2] =>
    if k2 = k then
      some (Tensor.ofFn [n, m] fun ix =>
        match ix with
        | [i, j] => (((List.range k).map fun l => x.get [i, l] * w.get [j, l])).sum
        | _ => 0)
    else none
  | _, _ => none

/-- `torch.norm(t, dim=1, keepdim=True)` on a 2-D tensor: the L2 norm of each
row, kept as a `(rows, 1)` tensor.  The `sqrt` primitive is explicit.  Only
applied to 2-D tensors in the source pipeline. -/
def normDim1 {α : Type} [Zero α] [Add α] [Mul α] (sqrt : α → α) (t : Tensor α) :
    Tensor α :=
  match t.shape with
  | [m, n] =>
    Tensor.ofFn [m, 1] fun ix =>
      match ix with
      | [i, _] => sqrt (((List.range n).map fun j => t.get [i, j] * t.get [i, j])).sum
      | _ => 0
  | _ => t

/-- One output scalar of `F.conv2d`: the padded dot product of a kernel
window with the input, for batch `b`, output channel `oc`, output position
`(oh, ow)`. -/
def conv2dEntry {α : Type} [Zero α] [Add α] [Mul α] (x w : Tensor α)
    (h wd cink kh kw sh sw ph pw dh dw gbase : Nat)
    (b oc oh ow : Nat) : α :=
  (((List.range cink).map fun ic =>
    (((List.range kh).map fun i =>
      (((List.range kw).map fun j =>
        (if ph ≤ oh * sh + i * dh ∧ oh * sh + i * dh < h + ph ∧
            pw ≤ ow * sw + j * dw ∧ ow * sw + j * dw < wd + pw then
          x.get [b, gbase + ic, oh * sh + i * dh - ph, ow * sw + j * dw - pw]
        else 0) * w.get [oc, ic, i, j])).sum)).sum)).sum

/-- `F.conv2d(x, w, bias=None, stride, padding, dilation, groups)` for a 4-D
input `(batch, channels, height, width)` and kernel
`(out_channels, in_channels/groups, kh, kw)` with zero padding. -/
def conv2dF {α : Type} [Zero α] [Add α] [Mul α] (x w : Tensor α)
    (stride padding dilation : Nat × Nat) (groups : Nat) : Option (Tensor α) :=
  match x.shape, w.shape with
  | [n, cin, h, wd], [cout, cink, kh, kw] =>
    let sh := stride.1; let sw := stride.2
    let ph := padding.1; let pw := padding.2
    let dh := dilation.1; let dw := dilation.2
    if groups = 0 ∨ sh = 0 ∨ sw = 0 then none
    else if cin ≠ cink * groups then none
    else if cout % groups ≠ 0 then none
    else if h + 2 * ph < dh * (kh - 1) + 1 ∨ wd + 2 * pw < dw * (kw - 1) + 1 then none
    else
      let hout := (h + 2 * ph - dh * (kh - 1) - 1) / sh + 1
      let wout := (wd + 2 * pw - dw * (kw - 1) - 1) / sw + 1
      some (Tensor.ofFn [n, cout, hout, wout] fun ix =>
        match ix with
        | [b, oc, oh, ow] =>
          conv2dEntry x w h wd cink kh kw sh sw ph pw dh dw
            (oc / (cout / groups) * cink) b oc oh ow
        | _ => 0)
  | _, _ => none

/-- Python-style dimension lookup `shape[i]` (an out-of-range index raises,
hence `Option`). -/
def pyDim : List Nat → Nat → Option Nat
  | [], _ => none
  | d :: _, 0 => some d
  | _ :: s, n + 1 => pyDim s n

/-- `t.view(t.size(0), -1)`: flatten all trailing axes (raises on a 0-d
tensor).  The inferred `-1` dimension is exactly the product of the trailing
sizes, so the element count is unchanged. -/
def flatten2 {α : Type} (t : Tensor α) : Option (Tensor α) :=
  match t.shape with
  | d :: rest => some ⟨[d, rest.prod], t.data⟩
  | [] => none

/-- The norm expression shared by `update_layer` (lines 87-89) and the
embedding/conv forward paths (lines 167-172 / 210-215):
`w.transpose(1, 0).reshape(w.shape[1], -1).norm(dim=1, keepdim=True)
  .reshape(w.shape[1], *[1] * dora_num_dims).transpose(1, 0)`. -/
def normSeq {α : Type} [Zero α] [Add α] [Mul α] (sqrt : α → α) (dora_num_dims : Nat)
    (w : Tensor α) : Option (Tensor α) := do
  let c ← pyDim w.shape 1
  let flat ← w.transpose01.view [c, w.shape.prod / c]
  let n2 ← (normDim1 sqrt flat).view (c :: List.replicate dora_num_dims 1)
  pure n2.transpose01

/-- A dense (or embedding) base layer as read by this module: its
(dequantized) weight and its bias.  `dequantize_module_weight` is modeled as
reading the stored full-precision weight. -/
structure LinearBase (α : Type) where
  weight : Tensor α
  bias : Option (Tensor α)
deriving DecidableEq

/-- A 2-D convolution base layer as read by this module. -/
structure Conv2dBase (α : Type) where
  weight : Tensor α
  bias : Option (Tensor α)
  stride : Nat × Nat
  padding : Nat × Nat
  dilation : Nat × Nat
  groups : Nat
deriving DecidableEq

/-- `DoraLinearLayer` state.  `dora_num_dims` and `shape` start as `None`
(`__init__`, lines 26-30); the magnitude parameter `self.weight` does not
exist before `update_layer` registers it (line 95), which `Option` captures. -/
structure DoraLinearLayer (α : Type) where
  fan_in_fan_out : Bool
  dora_num_dims : Option Nat
  shape : Option (List Nat)
  weight : Option (Tensor α)
deriving DecidableEq

/-- `DoraLinearLayer.__init__(fan_in_fan_out)`. -/
def DoraLinearLayer.init {α : Type} (fan_in_fan_out : Bool) : DoraLinearLayer α :=
  ⟨fan_in_fan_out, none, none, none⟩

/-- `make_weight(A, B)` (lines 32-47):
`W = B.view(B.size(0), -1) @ A.view(A.size(0), -1); return W.view(self.shape)`.
Fails (as the Python does) when `self.shape` is still `None` or the shapes do
not line up. -/
def DoraLinearLayer.make_weight {α : Type} [Zero α] [Add α] [Mul α]
    (self : DoraLinearLayer α) (A B : Tensor α) : Option (Tensor α) := do
  let Bf ← flatten2 B
  let Af ← flatten2 A
  let W ← mm Bf Af
  let s ← self.shape
  W.view s

/-- `update_layer(base_layer, lora_A, lora_B, scaling, place_on_cpu)`
(lines 69-95).  The fp16 upcast, the FSDP parameter gathering, the
`Linear4bit` deep copy and the device moves change no values over an exact
scalar type and are modeled as identity; `get_weight_shape` returns
`base_layer.weight.shape` on the non-quantized path.  The `lora_A`, `lora_B`
and `scaling` arguments are accepted but, as in the source, never enter the
stored norm. -/
def DoraLinearLayer.update_layer {α : Type} [Zero α] [Add α] [Mul α]
    (sqrt : α → α) (self : DoraLinearLayer α) (base_layer_weight : Tensor α)
    (lora_A lora_B : Tensor α) (scaling : α) (place_on_cpu : Bool) :
    Option (DoraLinearLayer α) :=
  let shape := base_layer_weight.shape
  let weight := ptranspose self.fan_in_fan_out base_layer_weight
  let dora_num_dims := weight.shape.length - 1
  (normSeq sqrt dora_num_dims weight).map fun weight_norm =>
    { self with
        shape := some shape
        dora_num_dims := some dora_num_dims
        weight := some weight_norm }

/-- Lines 106-118 of the dense forward: the tensor the magnitude is divided
by — the composed weight `weight + make_weight(A, B) * scaling`, detached.
No norm is taken and no epsilon is added here. -/
def DoraLinearLayer.dense_denominator {α : Type} [Zero α] [Add α] [Mul α]
    (detach : α → α) (self : DoraLinearLayer α) (lora_A lora_B : Tensor α)
    (scaling : α) (weight : Tensor α) : Option (Tensor α) := do
  let mw ← self.make_weight lora_A lora_B
  let weight_norm ← ewise (· + ·) weight (mw.map (· * scaling))
  pure (weight_norm.map detach)

/-- `DoraLinearLayer.forward(x, lora_A, lora_B, scaling, base_layer)`
(lines 97-142).  The debug `print` calls are I/O only.  The returned tensor
is, per the docstring, the extra output to be added on top of the base layer
output. -/
def DoraLinearLayer.forward {α : Type} [Zero α] [One α] [Add α] [Mul α] [Sub α] [Div α]
    (detach : α → α) (self : DoraLinearLayer α) (x : Tensor α)
    (lora_A lora_B : Tensor α) (scaling : α) (base_layer : LinearBase α) :
    Option (Tensor α) := do
  let xa ← linearF x lora_A
  let lora_result ← linearF xa lora_B
  let magnitude ← self.weight
  let weight := base_layer.weight
  let weight_norm ← self.dense_denominator detach lora_A lora_B scaling weight
  let bb ← ewise (· / ·) magnitude weight_norm
  let d0 ← pyDim weight.shape 0
  let mag_norm_scale ← bb.view [bb.shape.prod / d0, d0]
  let base_lin ← linearF x (ptranspose self.fan_in_fan_out weight)
  let t1 ← ewise (· * ·) (mag_norm_scale.map (· - 1)) base_lin
  let t2 ← ewise (· * ·) mag_norm_scale lora_result
  ewise (· + ·) t1 (t2.map (· * scaling))

/-- The denominator of the embedding/conv forward paths (lines 166-172 and
209-215): detach the composed weight, run the shared norm expression with the
cached `self.dora_num_dims`, and add the machine epsilon `eps` of the dtype. -/
def DoraLinearLayer.norm_denominator {α : Type} [Zero α] [Add α] [Mul α]
    (sqrt detach : α → α) (eps : α) (self : DoraLinearLayer α)
    (weight_norm : Tensor α) : Option (Tensor α) := do
  let dnd ← self.dora_num_dims
  let n ← normSeq sqrt dnd (weight_norm.map detach)
  pure (n.map (· + eps))

/-- `DoraEmbeddingLayer.forward(x, lora_A, lora_B, scaling, base_layer,
embed_fn)` (lines 150-175).  `embed_fn` is an external callback; `embedRes`
stands for the tensor `embed_fn(x, lora_A)` evaluates to, so the statement
quantifies over every input `x` and lookup function.  In the source the
factors appear both behind a `.weight` attribute (in `make_weight`) and
directly (in the matmul); both denote the same underlying matrix here.
Returns the pair `(mag_norm_scale, result_dora)`. -/
def DoraEmbeddingLayer.forward {α : Type} [Zero α] [Add α] [Mul α] [Div α]
    (sqrt detach : α → α) (eps : α) (self : DoraLinearLayer α)
    (embedRes : Tensor α) (lora_A lora_B : Tensor α) (scaling : α)
    (base_layer : LinearBase α) : Option (Tensor α × Tensor α) := do
  let lora_weight ← self.make_weight lora_A lora_B
  let magnitude ← self.weight
  let weight := base_layer.weight
  let weight_norm ← ewise (· + ·) weight (lora_weight.map (· * scaling))
  let norm ← self.norm_denominator sqrt detach eps weight_norm
  let mag_norm_scale ← ewise (· / ·) magnitude norm
  let t ← mm embedRes lora_B
  let result_dora ← ewise (· * ·) mag_norm_scale t
  pure (mag_norm_scale, result_dora.map (· * scaling))

/-- `DoraConv2dLayer.forward(x, lora_A, lora_B, scaling, base_layer)`
(lines 190-227).  The convolution weight is
`magnitude * (weight_norm / norm)` and the convolution is invoked with
`bias=None` and the base layer's stride/padding/dilation/groups. -/
def DoraConv2dLayer.forward {α : Type} [Zero α] [Add α] [Mul α] [Div α]
    (sqrt detach : α → α) (eps : α) (self : DoraLinearLayer α) (x : Tensor α)
    (lora_A lora_B : Tensor α) (scaling : α) (base_layer : Conv2dBase α) :
    Option (Tensor α) := do
  let weight := base_layer.weight
  let lora_weight ← self.make_weight lora_A lora_B
  let magnitude ← self.weight
  let weight_norm ← ewise (· + ·) weight (lora_weight.map (· * scaling))
  let norm ← self.norm_denominator sqrt detach eps weight_norm
  let ratio ← ewise (· / ·) weight_norm norm
  let weight2 ← ewise (· * ·) magnitude ratio
  conv2dF x weight2 base_layer.stride base_layer.padding base_layer.dilation
    base_layer.groups

/-- A Python method call hands the receiver back to the caller along with the
result; the dense forward body contains no writes to `self`, so the receiver
comes back unchanged.  This wrapper makes that frame condition checkable. -/
def DoraLinearLayer.forwardCall {α : Type} [Zero α] [One α] [Add α] [Mul α] [Sub α] [Div α]
    (detach : α → α) (self : DoraLinearLayer α) (x : Tensor α)
    (lora_A lora_B : Tensor α) (scaling : α) (base_layer : LinearBase α) :
    DoraLinearLayer α × Option (Tensor α) :=
  (self, self.forward detach x lora_A lora_B scaling base_layer)

/-- Method-call view of the embedding forward (no writes to `self`). -/
def DoraEmbeddingLayer.forwardCall {α : Type} [Zero α] [Add α] [Mul α] [Div α]
    (sqrt detach : α → α) (eps : α) (self : DoraLinearLayer α)
    (embedRes : Tensor α) (lora_A lora_B : Tensor α) (scaling : α)
    (base_layer : LinearBase α) :
    DoraLinearLayer α × Option (Tensor α × Tensor α) :=
  (self, DoraEmbeddingLayer.forward sqrt detach eps self embedRes lora_A lora_B
    scaling base_layer)

/-- Method-call view of the conv forward (no writes to `self`). -/
def DoraConv2dLayer.forwardCall {α : Type} [Zero α] [Add α] [Mul α] [Div α]
    (sqrt detach : α → α) (eps : α) (self : DoraLinearLayer α) (x : Tensor α)
    (lora_A lora_B : Tensor α) (scaling : α) (base_layer : Conv2dBase α) :
    DoraLinearLayer α × Option (Tensor α) :=
  (self, DoraConv2dLayer.forward sqrt detach eps self x lora_A lora_B scaling
    base_layer)

/-- A forward-mode dual number: a value and the derivative it carries with
respect to some chosen scalar parameter of the computation. -/
structure Dual (α : Type) where
  v : α
  d : α
deriving DecidableEq

instance {α : Type} [Zero α] : Zero (Dual α) := ⟨⟨0, 0⟩⟩

instance {α : Type} [Zero α] [One α] : One (Dual α) := ⟨⟨1, 0⟩⟩

instance {α : Type} [Add α] : Add (Dual α) :=
  ⟨fun a b => ⟨a.v + b.v, a.d + b.d⟩⟩

instance {α : Type} [Add α] [Mul α] : Mul (Dual α) :=
  ⟨fun a b => ⟨a.v * b.v, a.v * b.d + a.d * b.v⟩⟩

instance {α : Type} [Sub α] : Sub (Dual α) :=
  ⟨fun a b => ⟨a.v - b.v, a.d - b.d⟩⟩

instance {α : Type} [Sub α] [Mul α] [Div α] : Div (Dual α) :=
  ⟨fun a b => ⟨a.v / b.v, (a.d * b.v - a.v * b.d) / (b.v * b.v)⟩⟩

/-- `tensor.detach()` in forward-mode semantics: keep the value, drop the
derivative — the detached result is a constant for differentiation. -/
def Dual.detach {α : Type} [Zero α] (a : Dual α) : Dual α := ⟨a.v, 0⟩

/-- A dual-valued tensor carrying derivative zero everywhere: the embedded
form of "this tensor is a constant with respect to the learning process". -/
def DualConst {α : Type} [Zero α] (t : Tensor (Dual α)) : Prop :=
  ∀ a ∈ t.data, a.d = 0

instance {α : Type} [Zero α] [DecidableEq α] (t : Tensor (Dual α)) :
    Decidable (DualConst t) := by
  unfold DualConst
  infer_instance

/-- Claim C6's stated form of the convolution forward, for the refinement
comparison (this follows the claim's words, not the source): compose the
weight, take the per-output-channel norm over axes (1, 2, 3) jointly (one
entry per output channel, broadcastable), scale the composed weight by
`magnitude / (norm + eps)`, convolve with the base layer's
stride/padding/dilation/groups, and apply the base layer's bias. -/
def convForwardClaimed {α : Type} [Zero α] [Add α] [Mul α] [Div α]
    (sqrt : α → α) (eps : α) (self : DoraLinearLayer α)
    (x lora_A lora_B : Tensor α) (scaling : α) (base_layer : Conv2dBase α) :
    Option (Tensor α) := do
  let mw ← self.make_weight lora_A lora_B
  let composed ← ewise (· + ·) base_layer.weight (mw.map (· * scaling))
  let magnitude ← self.weight
  match composed.shape with
  | [o, ci, kh, kw] =>
    let normc := Tensor.ofFn [o, 1, 1, 1] fun ix =>
      match ix with
      | j :: _ => sqrt ((((List.range ci).map fun c2 =>
          (((List.range kh).map fun i2 =>
            (((List.range kw).map fun j2 =>
              composed.get [j, c2, i2, j2] *
                composed.get [j, c2, i2, j2])).sum)).sum)).sum)
      | _ => 0
    let scale ← ewise (· / ·) magnitude (normc.map (· + eps))
    let w2 ← ewise (· * ·) scale composed
    let r ← conv2dF x w2 base_layer.stride base_layer.padding
      base_layer.dilation base_layer.groups
    match base_layer.bias with
    | some b =>
      ewise (· + ·) r (Tensor.ofFn [1, o, 1, 1] fun ix =>
        match ix with
        | [_, j, _, _] => b.get [j]
        | _ => 0)
    | none => pure r
  | _ => none

/-- Claim C2's stated form of the dense forward, for the refinement
comparison (this follows the claim's words, not the source): compose the
weight, take its per-output-channel norm, build
`scale = magnitude / (norm + eps)`, and return
`scale * linearOp(x, composedWeight, bias)` with the base layer's bias
applied — the direct reweighted form. -/
def denseForwardClaimed {α : Type} [Zero α] [Add α] [Mul α] [Div α]
    (sqrt : α → α) (eps : α) (self : DoraLinearLayer α)
    (x lora_A lora_B : Tensor α) (scaling : α) (base_layer : LinearBase α) :
    Option (Tensor α) := do
  let mw ← self.make_weight lora_A lora_B
  let composed ← ewise (· + ·) base_layer.weight (mw.map (· * scaling))
  let magnitude ← self.weight
  match composed.shape with
  | [o, i] =>
    let normc := Tensor.ofFn [o] fun ix =>
      match ix with
      | [j] => sqrt ((((List.range i).map fun l =>
          composed.get [j, l] * composed.get [j, l])).sum)
      | _ => 0
    let scale ← ewise (· / ·) magnitude (normc.map (· + eps))
    let lin ← linearF x composed
    let lin2 ← match base_layer.bias with
      | some b => ewise (· + ·) lin b
      | none => pure lin
    ewise (· * ·) scale lin2
  | _ => none

/-! ### Properties -/

theorem flatIdx_lt {s ix : List Nat} (h : validIdx s ix = true) :
    flatIdx s ix < s.prod := by
  induction s generalizing ix with
  | nil => cases ix <;> simp_all [validIdx, flatIdx]
  | cons d s ih =>
    cases ix with
    | nil => simp [validIdx] at h
    | cons i ix =>
      simp only [validIdx, Bool.and_eq_true, decide_eq_true_eq] at h
      have hfi := ih h.2
      have hprodpos : 0 < s.prod := Nat.pos_of_ne_zero (by
        intro hz
        rw [hz] at hfi
        exact Nat.not_lt_zero _ hfi)
      calc i * s.prod + flatIdx s ix < i * s.prod + s.prod := by
              exact Nat.add_lt_add_left hfi _
        _ = (i + 1) * s.prod := by ring
        _ ≤ d * s.prod := Nat.mul_le_mul_right _ h.1
        _ = (d :: s).prod := by simp [Nat.mul_comm]

theorem unflatten_flatIdx {s ix : List Nat} (h : validIdx s ix = true) :
    unflatten s (flatIdx s ix) = ix := by
  induction s generalizing ix with
  | nil => cases ix <;> simp_all [validIdx, unflatten]
  | cons d s ih =>
    cases ix with
    | nil => simp [validIdx] at h
    | cons i ix =>
      simp only [validIdx, Bool.and_eq_true, decide_eq_true_eq] at h
      have hfi : flatIdx s ix < s.prod := flatIdx_lt h.2
      have hprodpos : 0 < s.prod := Nat.pos_of_ne_zero (by
        intro hz
        rw [hz] at hfi
        exact Nat.not_lt_zero _ hfi)
      have h1 : (i * s.prod + flatIdx s ix) / s.prod = i := by
        rw [Nat.add_comm, Nat.add_mul_div_right _ _ hprodpos, Nat.div_eq_of_lt hfi,
          Nat.zero_add]
      have h2 : (i * s.prod + flatIdx s ix) % s.prod = flatIdx s ix := by
        rw [Nat.add_comm, Nat.add_mul_mod_self_right, Nat.mod_eq_of_lt hfi]
      simp only [unflatten, flatIdx]
      rw [h1, h2, ih h.2]

theorem validIdx_unflatten {s : List Nat} {n : Nat} (h : n < s.prod) :
    validIdx s (unflatten s n) = true := by
  induction s generalizing n with
  | nil => simp [unflatten, validIdx]
  | cons d s ih =>
    have hprodpos : 0 < s.prod := by
      rcases Nat.eq_zero_or_pos s.prod with hz | hp
      · rw [List.prod_cons, hz, Nat.mul_zero] at h
        exact absurd h (Nat.not_lt_zero _)
      · exact hp
    simp only [unflatten, validIdx, Bool.and_eq_true, decide_eq_true_eq]
    refine ⟨?_, ih (Nat.mod_lt _ hprodpos)⟩
    rw [List.prod_cons] at h
    exact Nat.div_lt_of_lt_mul (by rw [Nat.mul_comm]; exact h)

theorem flatIdx_unflatten {s : List Nat} {n : Nat} (h : n < s.prod) :
    flatIdx s (unflatten s n) = n := by
  induction s generalizing n with
  | nil => simp [List.prod_nil] at h; simp [unflatten, flatIdx, h]
  | cons d s ih =>
    have hprodpos : 0 < s.prod := by
      rcases Nat.eq_zero_or_pos s.prod with hz | hp
      · rw [List.prod_cons, hz, Nat.mul_zero] at h
        exact absurd h (Nat.not_lt_zero _)
      · exact hp
    simp only [unflatten, flatIdx]
    rw [ih (Nat.mod_lt _ hprodpos)]
    exact Nat.div_add_mod' n s.prod

/-- `unflatten` of a split flat position `i * Q + m` (with `m < Q`, `Q` the
product of the trailing dims) peels off `i` as the leading coordinate. -/
theorem unflatten_cons {s : List Nat} {i m : Nat} (hm : m < s.prod) (d : Nat) :
    unflatten (d :: s) (i * s.prod + m) = i :: unflatten s m := by
  have hprodpos : 0 < s.prod := by
    rcases Nat.eq_zero_or_pos s.prod with hz | hp
    · rw [hz] at hm; exact absurd hm (Nat.not_lt_zero _)
    · exact hp
  have h1 : (i * s.prod + m) / s.prod = i := by
    rw [Nat.add_comm, Nat.add_mul_div_right _ _ hprodpos, Nat.div_eq_of_lt hm,
      Nat.zero_add]
  have h2 : (i * s.prod + m) % s.prod = m := by
    rw [Nat.add_comm, Nat.add_mul_mod_self_right, Nat.mod_eq_of_lt hm]
  simp only [unflatten]
  rw [h1, h2]

namespace Tensor

variable {α : Type}

theorem shape_ofFn (s : List Nat) (f : List Nat → α) : (ofFn s f).shape = s := rfl

theorem length_data_ofFn (s : List Nat) (f : List Nat → α) :
    (ofFn s f).data.length = s.prod := by
  simp [ofFn]

theorem WF_ofFn (s : List Nat) (f : List Nat → α) : (ofFn s f).WF := by
  simp [WF, numel, ofFn]

theorem getD_range_map {f : Nat → α} {P n : Nat} (h : n < P) (d : α) :
    ((List.range P).map f).getD n d = f n := by
  rw [List.getD_eq_getElem?_getD, List.getElem?_map, List.getElem?_range h]
  rfl

theorem get_ofFn [Zero α] {s ix : List Nat} (f : List Nat → α)
    (h : validIdx s ix = true) : (ofFn s f).get ix = f ix := by
  unfold get ofFn
  simp only
  rw [getD_range_map (flatIdx_lt h), unflatten_flatIdx h]

end Tensor

theorem mulAdd_div {Q i m : Nat} (hm : m < Q) : (i * Q + m) / Q = i := by
  have hQ : 0 < Q := Nat.pos_of_ne_zero (by rintro rfl; exact Nat.not_lt_zero _ hm)
  rw [Nat.add_comm, Nat.add_mul_div_right _ _ hQ, Nat.div_eq_of_lt hm, Nat.zero_add]

theorem mulAdd_mod {Q i m : Nat} (hm : m < Q) : (i * Q + m) % Q = m := by
  rw [Nat.add_comm, Nat.add_mul_mod_self_right, Nat.mod_eq_of_lt hm]

theorem listSum_range_map {α : Type} [AddCommMonoid α] (f : Nat → α) (n : Nat) :
    ((List.range n).map f).sum = ∑ i in Finset.range n, f i := by
  induction n with
  | zero => simp
  | succ n ih => rw [List.range_succ, List.map_append, List.sum_append,
      Finset.sum_range_succ, ih]; simp

theorem sum_range_mul {α : Type} [AddCommMonoid α] (f : Nat → α) (a b : Nat) :
    ∑ k in Finset.range (a * b), f k =
      ∑ i in Finset.range a, ∑ j in Finset.range b, f (i * b + j) := by
  induction a with
  | zero => simp
  | succ a ih =>
    rw [Nat.succ_mul, ← Finset.sum_range_add_sum_Ico f (Nat.le_add_right (a * b) b),
      ih, Finset.sum_range_succ]
    congr 1
    rw [Finset.sum_Ico_eq_sum_range]
    simp [Nat.add_sub_cancel_left, Nat.add_comm]

theorem flatIdx_all_zero {s ix : List Nat} (h : ∀ i ∈ ix, i = 0) :
    flatIdx s ix = 0 := by
  induction s generalizing ix with
  | nil => cases ix <;> simp [flatIdx]
  | cons d s ih =>
    cases ix with
    | nil => simp [flatIdx]
    | cons i ix =>
      have hi : i = 0 := h i (List.mem_cons_self _ _)
      simp only [flatIdx, hi, Nat.zero_mul, Nat.zero_add]
      exact ih fun j hj => h j (List.mem_cons_of_mem _ hj)

theorem validIdx_replicate (k : Nat) :
    validIdx (List.replicate k 1) (List.replicate k 0) = true := by
  induction k with
  | zero => rfl
  | succ k ih => simp [List.replicate_succ, validIdx, ih]

/-- What the shared norm expression (`normSeq`) actually computes on a tensor
of shape `(d0, c, rest...)`: a tensor of shape `(1, c, 1, ..., 1)` whose entry
at channel `j` of axis 1 is `sqrt` of the sum of squares of the slice
`w[:, j, ...]` — a norm per index of axis 1, reducing over axis 0 and all
trailing axes. -/
theorem normSeq_char {α : Type} [AddCommMonoid α] [Mul α] (sqrt : α → α)
    {w : Tensor α} {d0 c : Nat} {rest : List Nat} {dnd : Nat}
    (hsh : w.shape = d0 :: c :: rest) (hc : 0 < c) (hdnd : 1 ≤ dnd) :
    ∃ T, normSeq sqrt dnd w = some T ∧ T.WF ∧
      T.shape = 1 :: c :: List.replicate (dnd - 1) 1 ∧
      ∀ j, j < c →
        T.get (0 :: j :: List.replicate (dnd - 1) 0) =
          sqrt (∑ i in Finset.range d0, ∑ m in Finset.range rest.prod,
            w.get (i :: j :: unflatten rest m) * w.get (i :: j :: unflatten rest m)) := by
  obtain ⟨d, hd⟩ : ∃ d, dnd = d + 1 := ⟨dnd - 1, (Nat.succ_pred_eq_of_pos hdnd).symm⟩
  subst hd
  simp only [Nat.add_sub_cancel]
  -- the transposed weight
  have htw : w.transpose01 = Tensor.ofFn (c :: d0 :: rest) fun ix =>
      match ix with
      | j :: i :: r => w.get (i :: j :: r)
      | _ => 0 := by
    unfold Tensor.transpose01
    rw [hsh]
  set rp := rest.prod with hrp
  have hprod : w.shape.prod = c * (d0 * rp) := by
    rw [hsh]; simp [List.prod_cons]; ring
  have hP : w.shape.prod / c = d0 * rp := by
    rw [hprod, Nat.mul_div_cancel_left _ hc]
  -- step 1: pyDim
  have h1 : pyDim w.shape 1 = some c := by rw [hsh]; rfl
  -- step 2: the flattening view succeeds
  have htwsh : w.transpose01.shape = c :: d0 :: rest := by rw [htw]; rfl
  have h2 : w.transpose01.view [c, w.shape.prod / c] =
      some ⟨[c, d0 * rp], w.transpose01.data⟩ := by
    unfold Tensor.view
    rw [htwsh, hP]
    simp only [List.prod_cons, List.prod_nil, Nat.mul_one]
    rw [if_pos (by trivial)]
  -- the flattened tensor's entries
  set flat : Tensor α := ⟨[c, d0 * rp], w.transpose01.data⟩ with hflat
  have hflatget : ∀ j l, j < c → l < d0 * rp →
      flat.get [j, l] = w.get (l / rp :: j :: unflatten rest (l % rp)) := by
    intro j l hj hl
    have hfi : flatIdx [c, d0 * rp] [j, l] = j * (d0 * rp) + l := by
      simp [flatIdx, List.prod_cons]
    have hlt : j * (d0 * rp) + l < c * (d0 * rp) := by
      calc j * (d0 * rp) + l < j * (d0 * rp) + d0 * rp := Nat.add_lt_add_left hl _
        _ = (j + 1) * (d0 * rp) := by ring
        _ ≤ c * (d0 * rp) := Nat.mul_le_mul_right _ hj
    have hdata : w.transpose01.data =
        (List.range (c * (d0 * rp))).map fun n =>
          (fun ix => match ix with
            | j :: i :: r => w.get (i :: j :: r)
            | _ => (0 : α)) (unflatten (c :: d0 :: rest) n) := by
      rw [htw]
      unfold Tensor.ofFn
      simp only [List.prod_cons]
    show flat.data.getD (flatIdx flat.shape [j, l]) 0 = _
    have hfsh : flat.shape = [c, d0 * rp] := rfl
    have hfdata : flat.data = w.transpose01.data := rfl
    rw [hfsh, hfdata, hfi, hdata, Tensor.getD_range_map hlt]
    have hunf : unflatten (c :: d0 :: rest) (j * (d0 * rp) + l) =
        j :: unflatten (d0 :: rest) l := by
      have : (d0 :: rest).prod = d0 * rp := by simp [List.prod_cons]
      exact this ▸ unflatten_cons (this ▸ hl) c
    rw [hunf]
    have hunf2 : unflatten (d0 :: rest) l = l / rp :: unflatten rest (l % rp) := by
      simp [unflatten]
    rw [hunf2]
  -- step 3: the row norms
  have h3 : normDim1 sqrt flat = Tensor.ofFn [c, 1] fun ix =>
      match ix with
      | [i, _] => sqrt ((((List.range (d0 * rp)).map fun j =>
          flat.get [i, j] * flat.get [i, j])).sum)
      | _ => 0 := by
    unfold normDim1
    rfl
  -- step 4: the reshape to (c, 1, ..., 1) always succeeds
  set n2 : Tensor α :=
    ⟨c :: List.replicate (d + 1) 1, (normDim1 sqrt flat).data⟩ with hn2
  have h4 : (normDim1 sqrt flat).view (c :: List.replicate (d + 1) 1) = some n2 := by
    unfold Tensor.view
    rw [if_pos]
    rw [h3, Tensor.shape_ofFn]
    simp [List.prod_replicate]
  -- the data of n2, read at position j < c
  have hn2get : ∀ j, j < c →
      n2.data.getD j 0 = sqrt ((((List.range (d0 * rp)).map fun l =>
        flat.get [j, l] * flat.get [j, l])).sum) := by
    intro j hj
    have hun : unflatten [c, 1] j = [j, 0] := by
      simp [unflatten, Nat.div_one, Nat.mod_one]
    have : n2.data = (List.range (c * 1)).map fun n =>
        (fun ix => match ix with
          | [i, _] => sqrt ((((List.range (d0 * rp)).map fun l =>
              flat.get [i, l] * flat.get [i, l])).sum)
          | _ => (0 : α)) (unflatten [c, 1] n) := by
      rw [hn2]
      show (normDim1 sqrt flat).data = _
      rw [h3]
      unfold Tensor.ofFn
      simp [List.prod_cons]
    rw [this, Tensor.getD_range_map (by simpa using hj)]
    rw [hun]
  -- step 5: the final transpose
  have hrepl : List.replicate (d + 1) 1 = 1 :: List.replicate d 1 := rfl
  have hT : n2.transpose01 = Tensor.ofFn (1 :: c :: List.replicate d 1) fun ix =>
      match ix with
      | j :: i :: r => n2.get (i :: j :: r)
      | _ => 0 := rfl
  refine ⟨n2.transpose01, ?_, by rw [hT]; exact Tensor.WF_ofFn _ _,
    by rw [hT]; rfl, ?_⟩
  · unfold normSeq
    rw [h1]
    simp only [Option.bind_eq_bind, Option.some_bind]
    rw [h2]
    simp only [Option.some_bind]
    rw [h4]
    rfl
  · intro j hj
    have hvalid : validIdx (1 :: c :: List.replicate d 1)
        (0 :: j :: List.replicate d 0) = true := by
      simp [validIdx, hj, validIdx_replicate]
    rw [hT, Tensor.get_ofFn _ hvalid]
    show n2.get (j :: 0 :: List.replicate d 0) = _
    have hfi : flatIdx n2.shape (j :: 0 :: List.replicate d 0) = j := by
      have hsh2 : n2.shape = c :: 1 :: List.replicate d 1 := rfl
      rw [hsh2]
      show j * (1 :: List.replicate d 1).prod +
        (0 * (List.replicate d 1).prod + flatIdx (List.replicate d 1) (List.replicate d 0)) = j
      rw [flatIdx_all_zero (fun i hi => List.eq_of_mem_replicate hi)]
      simp [List.prod_replicate]
    show n2.data.getD (flatIdx n2.shape (j :: 0 :: List.replicate d 0)) 0 = _
    rw [hfi, hn2get j hj]
    congr 1
    rw [listSum_range_map]
    have hsummand : ∀ l ∈ Finset.range (d0 * rp),
        flat.get [j, l] * flat.get [j, l] =
        w.get (l / rp :: j :: unflatten rest (l % rp)) *
          w.get (l / rp :: j :: unflatten rest (l % rp)) := by
      intro l hl
      rw [hflatget j l hj (Finset.mem_range.mp hl)]
    rw [Finset.sum_congr rfl hsummand, sum_range_mul]
    refine Finset.sum_congr rfl fun i _ => Finset.sum_congr rfl fun m hm => ?_
    rw [mulAdd_div (Finset.mem_range.mp hm), mulAdd_mod (Finset.mem_range.mp hm)]

theorem bdim_self (x : Nat) : bdim x x = some x := by simp [bdim]

theorem bdim_one_left (y : Nat) : bdim 1 y = some y := by
  unfold bdim
  split_ifs with h1 h2 <;> simp_all

theorem bdim_one_right (x : Nat) : bdim x 1 = some x := by
  unfold bdim
  split_ifs with h1 h2 <;> simp_all

theorem bcastRev_self (l : List Nat) : bcastRev l l = some l := by
  induction l with
  | nil => rfl
  | cons x xs ih => simp [bcastRev, bdim_self, ih]

theorem bcast2_self (s : List Nat) : bcast2 s s = some s := by
  simp [bcast2, bcastRev_self]

theorem validIdx_length {s ix : List Nat} (h : validIdx s ix = true) :
    ix.length = s.length := by
  induction s generalizing ix with
  | nil => cases ix <;> simp_all [validIdx]
  | cons d s ih =>
    cases ix with
    | nil => simp [validIdx] at h
    | cons i ix =>
      simp only [validIdx, Bool.and_eq_true] at h
      simp [ih h.2]

theorem if_one_idx {j dm : Nat} (hj : j < dm) : (if dm = 1 then 0 else j) = j := by
  split_ifs with h
  · omega
  · rfl

theorem bIndex_of_valid {s ix : List Nat} (h : validIdx s ix = true) :
    bIndex s ix = ix := by
  unfold bIndex
  rw [validIdx_length h, Nat.sub_self, List.drop_zero]
  induction s generalizing ix with
  | nil => cases ix <;> simp_all [validIdx]
  | cons d s ih =>
    cases ix with
    | nil => simp [validIdx] at h
    | cons i ix =>
      simp only [validIdx, Bool.and_eq_true, decide_eq_true_eq] at h
      simp [if_one_idx h.1, ih h.2]

theorem ewise_eq {α : Type} [Zero α] (f : α → α → α) (a b : Tensor α)
    {s : List Nat} (hs : bcast2 a.shape b.shape = some s) :
    ewise f a b = some (Tensor.ofFn s fun ix => f (a.bget ix) (b.bget ix)) := by
  simp [ewise, hs]

theorem bget_of_valid {α : Type} [Zero α] {a : Tensor α} {ix : List Nat}
    (h : validIdx a.shape ix = true) : a.bget ix = a.get ix := by
  unfold Tensor.bget
  rw [bIndex_of_valid h]

/-- Entry formula for a same-shape elementwise op at a valid index. -/
theorem ewise_get_same {α : Type} [Zero α] (f : α → α → α) {a b : Tensor α}
    (hab : a.shape = b.shape) {c : Tensor α}
    (hc : ewise f a b = some c) {ix : List Nat}
    (hix : validIdx a.shape ix = true) :
    c.shape = a.shape ∧ c.get ix = f (a.get ix) (b.get ix) := by
  have hbix : validIdx b.shape ix = true := by rw [← hab]; exact hix
  have hs : bcast2 a.shape b.shape = some a.shape := by
    rw [hab]; exact bcast2_self _
  rw [ewise_eq f a b hs] at hc
  obtain rfl := Option.some.inj hc
  exact ⟨Tensor.shape_ofFn _ _, by
    rw [Tensor.get_ofFn _ hix, bget_of_valid hix, bget_of_valid hbix]⟩

theorem map_get {α : Type} [Zero α] (f : α → α) (h0 : f 0 = 0) (t : Tensor α)
    (ix : List Nat) : (t.map f).get ix = f (t.get ix) := by
  unfold Tensor.map Tensor.get
  simp only
  rw [List.getD_eq_getElem?_getD, List.getElem?_map, List.getD_eq_getElem?_getD]
  cases h : t.data[flatIdx t.shape ix]? <;> simp [h0]

theorem map_shape {α : Type} (f : α → α) (t : Tensor α) :
    (t.map f).shape = t.shape := rfl

theorem Dual.zero_d {α : Type} [Zero α] : (0 : Dual α).d = 0 := rfl

theorem DualConst.get_d {α : Type} [Zero α] {t : Tensor (Dual α)}
    (h : DualConst t) (ix : List Nat) : (t.get ix).d = 0 := by
  unfold Tensor.get
  rw [List.getD_eq_getElem?_getD]
  cases hg : t.data[flatIdx t.shape ix]? with
  | none => rfl
  | some a => exact h a (List.getElem?_mem hg)

theorem DualConst_ofFn {α : Type} [Zero α] {s : List Nat}
    {f : List Nat → Dual α} (h : ∀ ix, (f ix).d = 0) :
    DualConst (Tensor.ofFn s f) := by
  intro a ha
  obtain ⟨n, _, rfl⟩ := List.mem_map.mp ha
  exact h _

theorem DualConst_map_detach {α : Type} [Zero α] (t : Tensor (Dual α)) :
    DualConst (t.map Dual.detach) := by
  intro a ha
  obtain ⟨b, _, rfl⟩ := List.mem_map.mp ha
  rfl

theorem DualConst_map_add {α : Type} [AddMonoid α] {t : Tensor (Dual α)}
    (h : DualConst t) {e : Dual α} (he : e.d = 0) :
    DualConst (t.map (· + e)) := by
  intro a ha
  obtain ⟨b, hb, rfl⟩ := List.mem_map.mp ha
  show b.d + e.d = 0
  rw [h b hb, he, add_zero]

theorem DualConst_transpose01 {α : Type} [Zero α] {t : Tensor (Dual α)}
    (h : DualConst t) : DualConst t.transpose01 := by
  unfold Tensor.transpose01
  cases hs : t.shape with
  | nil => exact h
  | cons d0 rest =>
    cases rest with
    | nil => exact h
    | cons d1 rest =>
      refine DualConst_ofFn fun ix => ?_
      match ix with
      | [] => rfl
      | [_] => rfl
      | j :: i :: r => exact h.get_d _

theorem DualConst_view {α : Type} [Zero α] {t u : Tensor (Dual α)}
    (h : DualConst t) (hv : t.view s = some u) : DualConst u := by
  unfold Tensor.view at hv
  split_ifs at hv with hc
  obtain rfl := Option.some.inj hv
  exact h

theorem dual_sum_d {α : Type} [AddMonoid α] (l : List (Dual α))
    (h : ∀ x ∈ l, x.d = 0) : l.sum.d = 0 := by
  induction l with
  | nil => rfl
  | cons x xs ih =>
    rw [List.sum_cons]
    show x.d + xs.sum.d = 0
    rw [h x (List.mem_cons_self _ _), ih fun y hy => h y (List.mem_cons_of_mem _ hy),
      add_zero]

theorem DualConst_normDim1 {α : Type} [CommRing α] {sqrtD : Dual α → Dual α}
    (hs : ∀ a : α, (sqrtD ⟨a, 0⟩).d = 0) {t : Tensor (Dual α)}
    (h : DualConst t) : DualConst (normDim1 sqrtD t) := by
  unfold normDim1
  cases hsh : t.shape with
  | nil => exact h
  | cons m rest =>
    cases rest with
    | nil => exact h
    | cons n rest2 =>
      cases rest2 with
      | cons _ _ => exact h
      | nil =>
        refine DualConst_ofFn fun ix => ?_
        match ix with
        | [] => rfl
        | [_] => rfl
        | i :: _ :: _ :: _ => rfl
        | [i, k] =>
          show (sqrtD (((List.range n).map fun j =>
            t.get [i, j] * t.get [i, j])).sum).d = 0
          have hzero : (((List.range n).map fun j =>
              t.get [i, j] * t.get [i, j])).sum.d = 0 := by
            refine dual_sum_d _ fun x hx => ?_
            obtain ⟨j, _, rfl⟩ := List.mem_map.mp hx
            show (t.get [i, j]).v * (t.get [i, j]).d +
              (t.get [i, j]).d * (t.get [i, j]).v = 0
            rw [h.get_d, mul_zero, zero_mul, add_zero]
          have heta : (((List.range n).map fun j =>
              t.get [i, j] * t.get [i, j])).sum =
              ⟨(((List.range n).map fun j => t.get [i, j] * t.get [i, j])).sum.v, 0⟩ := by
            cases hsum : (((List.range n).map fun j =>
              t.get [i, j] * t.get [i, j])).sum
            simp only
            rw [← hzero, hsum]
          rw [heta]
          exact hs _

theorem DualConst_normSeq {α : Type} [CommRing α] {sqrtD : Dual α → Dual α}
    (hs : ∀ a : α, (sqrtD ⟨a, 0⟩).d = 0) {dnd : Nat} {t u : Tensor (Dual α)}
    (h : DualConst t) (hn : normSeq sqrtD dnd t = some u) : DualConst u := by
  unfold normSeq at hn
  simp only [Option.bind_eq_bind] at hn
  obtain ⟨c, _, hn⟩ := Option.bind_eq_some.mp hn
  obtain ⟨flat, hflat, hn⟩ := Option.bind_eq_some.mp hn
  obtain ⟨n2, hn2, hn⟩ := Option.bind_eq_some.mp hn
  obtain rfl := Option.some.inj hn
  exact DualConst_transpose01
    (DualConst_view (DualConst_normDim1 hs
      (DualConst_view (DualConst_transpose01 h) hflat)) hn2)

theorem make_weight_init_none {α : Type} [Zero α] [Add α] [Mul α] (fan : Bool)
    (A B : Tensor α) :
    (DoraLinearLayer.init fan : DoraLinearLayer α).make_weight A B = none := by
  unfold DoraLinearLayer.make_weight DoraLinearLayer.init
  simp only [Option.bind_eq_bind]
  cases hB : flatten2 B with
  | none => rfl
  | some Bf =>
    simp only [Option.some_bind]
    cases hA : flatten2 A with
    | none => rfl
    | some Af =>
      simp only [Option.some_bind]
      cases hm : mm Bf Af with
      | none => rfl
      | some W => simp

/-- Claim C10: a decomposition instance is constructed with `shape = None` and
`dora_num_dims = None`, and the magnitude parameter does not exist yet, so
calling any of the three forward variants before `update_layer` fails rather
than returning a tensor. -/
theorem claim_C10_forward_requires_update {α : Type} [Zero α] [One α] [Add α]
    [Mul α] [Sub α] [Div α] (fan : Bool) (sqrt detach : α → α) (eps : α)
    (x embedRes lora_A lora_B : Tensor α) (scaling : α)
    (blin : LinearBase α) (bconv : Conv2dBase α) :
    (DoraLinearLayer.init fan : DoraLinearLayer α).forward detach x lora_A
        lora_B scaling blin = none ∧
    DoraEmbeddingLayer.forward sqrt detach eps (DoraLinearLayer.init fan)
        embedRes lora_A lora_B scaling blin = none ∧
    DoraConv2dLayer.forward sqrt detach eps (DoraLinearLayer.init fan)
        x lora_A lora_B scaling bconv = none := by
  refine ⟨?_, ?_, ?_⟩
  · unfold DoraLinearLayer.forward
    simp only [Option.bind_eq_bind]
    cases h1 : linearF x lora_A with
    | none => rfl
    | some xa =>
      simp only [Option.some_bind]
      cases h2 : linearF xa lora_B with
      | none => rfl
      | some lr => simp [DoraLinearLayer.init]
  · unfold DoraEmbeddingLayer.forward
    rw [make_weight_init_none]
    rfl
  · unfold DoraConv2dLayer.forward
    rw [make_weight_init_none]
    rfl

/-- Claim C8: each forward variant is a pure function of the supplied inputs
and the stored state, and a call leaves the state untouched, so calling it
twice in a row with the same arguments returns identical outputs. -/
theorem claim_C8_forward_deterministic {α : Type} [Zero α] [One α] [Add α]
    [Mul α] [Sub α] [Div α] (sqrt detach : α → α) (eps : α)
    (self : DoraLinearLayer α) (x embedRes lora_A lora_B : Tensor α)
    (scaling : α) (blin : LinearBase α) (bconv : Conv2dBase α) :
    (((self.forwardCall detach x lora_A lora_B scaling blin).1).forwardCall
        detach x lora_A lora_B scaling blin).2 =
      (self.forwardCall detach x lora_A lora_B scaling blin).2 ∧
    (DoraEmbeddingLayer.forwardCall sqrt detach eps
        (DoraEmbeddingLayer.forwardCall sqrt detach eps self embedRes lora_A
          lora_B scaling blin).1 embedRes lora_A lora_B scaling blin).2 =
      (DoraEmbeddingLayer.forwardCall sqrt detach eps self embedRes lora_A
        lora_B scaling blin).2 ∧
    (DoraConv2dLayer.forwardCall sqrt detach eps
        (DoraConv2dLayer.forwardCall sqrt detach eps self x lora_A lora_B
          scaling bconv).1 x lora_A lora_B scaling bconv).2 =
      (DoraConv2dLayer.forwardCall sqrt detach eps self x lora_A lora_B
        scaling bconv).2 :=
  ⟨rfl, rfl, rfl⟩

/-- Claim C9: `update_layer` sets `shape`, `dora_num_dims` and the magnitude
parameter, and no forward variant mutates the layer state, so all three
fields survive any forward call unchanged. -/
theorem claim_C9_state_frame {α : Type} [Zero α] [One α] [Add α] [Mul α]
    [Sub α] [Div α] (sqrt detach : α → α) (eps : α)
    (self : DoraLinearLayer α) (w x embedRes lora_A lora_B : Tensor α)
    (scaling : α) (cpu : Bool) (blin : LinearBase α) (bconv : Conv2dBase α) :
    (∀ l', self.update_layer sqrt w lora_A lora_B scaling cpu = some l' →
      l'.shape = some w.shape ∧
      l'.dora_num_dims =
        some ((ptranspose self.fan_in_fan_out w).shape.length - 1) ∧
      l'.weight ≠ none) ∧
    (self.forwardCall detach x lora_A lora_B scaling blin).1 = self ∧
    (DoraEmbeddingLayer.forwardCall sqrt detach eps self embedRes lora_A
      lora_B scaling blin).1 = self ∧
    (DoraConv2dLayer.forwardCall sqrt detach eps self x lora_A lora_B scaling
      bconv).1 = self := by
  refine ⟨?_, rfl, rfl, rfl⟩
  intro l' hl
  unfold DoraLinearLayer.update_layer at hl
  obtain ⟨wn, hwn, rfl⟩ := Option.map_eq_some'.mp hl
  exact ⟨rfl, rfl, by simp⟩

/-- Witness for claim C9 at a concrete dense instance over `ℤ`. -/
theorem claim_C9_state_frame_witness :
    ((DoraLinearLayer.init false : DoraLinearLayer ℤ).update_layer id
        ⟨[1, 2], [3, 4]⟩ ⟨[1, 2], [0, 0]⟩ ⟨[1, 1], [0]⟩ 1 false =
      some ⟨false, some 1, some [1, 2], some ⟨[1, 2], [9, 16]⟩⟩) ∧
    ((⟨false, some 1, some [1, 2], some ⟨[1, 2], [9, 16]⟩⟩ :
        DoraLinearLayer ℤ).shape = some [1, 2] ∧
      (⟨false, some 1, some [1, 2], some ⟨[1, 2], [9, 16]⟩⟩ :
        DoraLinearLayer ℤ).dora_num_dims =
        some ((ptranspose false (⟨[1, 2], [3, 4]⟩ : Tensor ℤ)).shape.length - 1) ∧
      (⟨false, some 1, some [1, 2], some ⟨[1, 2], [9, 16]⟩⟩ :
        DoraLinearLayer ℤ).weight ≠ none) :=
  ⟨by decide,
    (claim_C9_state_frame id id 0 (DoraLinearLayer.init false) ⟨[1, 2], [3, 4]⟩
      ⟨[1, 1], [0]⟩ ⟨[1, 1], [0]⟩ ⟨[1, 2], [0, 0]⟩ ⟨[1, 1], [0]⟩ 1 false
      ⟨⟨[1, 1], [0]⟩, none⟩ ⟨⟨[1, 1], [0]⟩, none, (1, 1), (0, 0), (1, 1), 1⟩).1
      _ (by decide)⟩

/-- Claim C5: `make_weight` flattens `up` to `(out, -1)` and `down` to
`(rank, -1)`, multiplies and reshapes to `weight_shape`; for the dense,
embedding and convolution factor-shape families the call succeeds and the
output shape is exactly `weight_shape`. -/
theorem claim_C5_make_weight_shape {α : Type} [Zero α] [Add α] [Mul α]
    (self : DoraLinearLayer α) (A B : Tensor α) (s : List Nat)
    (hs : self.shape = some s)
    (hfam :
      (∃ o i r, s = [o, i] ∧ A.shape = [r, i] ∧ B.shape = [o, r]) ∨
      (∃ v dm r, s = [v, dm] ∧ A.shape = [r, v] ∧ B.shape = [dm, r]) ∨
      (∃ o i kh kw r, s = [o, i, kh, kw] ∧ A.shape = [r, i, kh, kw] ∧
        B.shape = [o, r, 1, 1])) :
    Option.map Tensor.shape (self.make_weight A B) = some s := by
  unfold DoraLinearLayer.make_weight
  rcases hfam with ⟨o, i, r, rfl, hA, hB⟩ | ⟨v, dm, r, rfl, hA, hB⟩ |
    ⟨o, i, kh, kw, r, rfl, hA, hB⟩ <;>
    simp only [flatten2, hA, hB, hs, Option.bind_eq_bind, Option.some_bind,
      List.prod_cons, List.prod_nil, Nat.mul_one, mm, Tensor.view,
      eq_self_iff_true, if_true, Tensor.shape_ofFn, Option.map_some']
  rw [if_pos (Nat.mul_comm v dm)]
  rfl

/-- Witness for claim C5 at concrete dense, embedding and convolution factor
shapes over `ℚ`. -/
theorem claim_C5_make_weight_shape_witness :
    Option.map Tensor.shape
      ((⟨false, some 1, some [2, 3], none⟩ : DoraLinearLayer ℚ).make_weight
        ⟨[1, 3], [5, 6, 7]⟩ ⟨[2, 1], [8, 9]⟩) = some [2, 3] :=
  claim_C5_make_weight_shape _ _ _ _ rfl
    (Or.inl ⟨2, 3, 1, rfl, rfl, rfl⟩)

theorem DualConst_ewise_div {α : Type} [CommRing α] [Div α]
    (hzd : ∀ a : α, (0 : α) / a = 0) {a b c : Tensor (Dual α)}
    (ha : DualConst a) (hb : DualConst b)
    (hc : ewise (· / ·) a b = some c) : DualConst c := by
  unfold ewise at hc
  obtain ⟨s, _, rfl⟩ := Option.map_eq_some'.mp hc
  refine DualConst_ofFn fun ix => ?_
  show ((a.bget ix).d * (b.bget ix).v - (a.bget ix).v * (b.bget ix).d) /
    ((b.bget ix).v * (b.bget ix).v) = 0
  have hda : (a.bget ix).d = 0 := ha.get_d _
  have hdb : (b.bget ix).d = 0 := hb.get_d _
  rw [hda, hdb, zero_mul, mul_zero, sub_zero, hzd]

/-- Claim C4: in every forward variant the tensor serving as the denominator
of the magnitude scaling is detached, so it carries derivative zero with
respect to any perturbation of the low-rank factors (or anything else), and a
scale computed from a derivative-free magnitude is itself derivative-free —
gradient reaches the factors only through the non-detached composed-weight
numerator. -/
theorem claim_C4_norm_denominator_detached {α : Type} [CommRing α] [Div α]
    (hzd : ∀ a : α, (0 : α) / a = 0) (sqrtD : Dual α → Dual α)
    (hs : ∀ a : α, (sqrtD ⟨a, 0⟩).d = 0) (self : DoraLinearLayer (Dual α))
    (lora_A lora_B weight wn embedRes : Tensor (Dual α)) (scaling : Dual α)
    (eps : Dual α) (heps : eps.d = 0) (mag : Tensor (Dual α))
    (hmagself : self.weight = some mag) (hmag : DualConst mag)
    (blin : LinearBase (Dual α)) :
    (∀ t, self.dense_denominator Dual.detach lora_A lora_B scaling weight =
        some t → DualConst t) ∧
    (∀ t, self.norm_denominator sqrtD Dual.detach eps wn = some t →
        DualConst t) ∧
    (∀ s r, DoraEmbeddingLayer.forward sqrtD Dual.detach eps self embedRes
        lora_A lora_B scaling blin = some (s, r) → DualConst s) := by
  have hnd : ∀ wn2 t, self.norm_denominator sqrtD Dual.detach eps wn2 = some t →
      DualConst t := by
    intro wn2 t ht
    unfold DoraLinearLayer.norm_denominator at ht
    simp only [Option.bind_eq_bind] at ht
    obtain ⟨dnd, _, ht⟩ := Option.bind_eq_some.mp ht
    obtain ⟨n, hn, ht⟩ := Option.bind_eq_some.mp ht
    obtain rfl := Option.some.inj ht
    exact DualConst_map_add (DualConst_normSeq hs (DualConst_map_detach _) hn) heps
  refine ⟨?_, hnd wn, ?_⟩
  · intro t ht
    unfold DoraLinearLayer.dense_denominator at ht
    simp only [Option.bind_eq_bind] at ht
    obtain ⟨mw, _, ht⟩ := Option.bind_eq_some.mp ht
    obtain ⟨wn2, _, ht⟩ := Option.bind_eq_some.mp ht
    obtain rfl := Option.some.inj ht
    exact DualConst_map_detach _
  · intro s r hf
    unfold DoraEmbeddingLayer.forward at hf
    simp only [Option.bind_eq_bind] at hf
    obtain ⟨lw, _, hf⟩ := Option.bind_eq_some.mp hf
    obtain ⟨magnitude, hmg, hf⟩ := Option.bind_eq_some.mp hf
    obtain ⟨wn2, _, hf⟩ := Option.bind_eq_some.mp hf
    obtain ⟨norm, hnorm, hf⟩ := Option.bind_eq_some.mp hf
    obtain ⟨mns, hmns, hf⟩ := Option.bind_eq_some.mp hf
    obtain ⟨t0, _, hf⟩ := Option.bind_eq_some.mp hf
    obtain ⟨rd, _, hf⟩ := Option.bind_eq_some.mp hf
    have hpair : (mns, rd.map (· * scaling)) = (s, r) := Option.some.inj hf
    have hseq : mns = s := congrArg Prod.fst hpair
    rw [hmagself] at hmg
    obtain rfl := Option.some.inj hmg
    rw [← hseq]
    exact DualConst_ewise_div hzd hmag (hnd wn2 norm hnorm) hmns

/-- Witness for claim C4 over dual integers: the factors carry derivative 1,
yet every denominator (and the scale built from a derivative-free magnitude)
carries derivative 0. -/
theorem claim_C4_norm_denominator_detached_witness :
    DualConst (⟨[1, 1], [⟨3, 0⟩]⟩ : Tensor (Dual ℤ)) ∧
    DualConst (⟨[1, 1], [⟨10, 0⟩]⟩ : Tensor (Dual ℤ)) ∧
    DualConst (⟨[1, 1], [⟨0, 0⟩]⟩ : Tensor (Dual ℤ)) := by
  have h := claim_C4_norm_denominator_detached (fun a : ℤ => Int.zero_ediv a)
    (fun p => ⟨p.v, 0⟩) (fun a => rfl)
    ⟨false, some 1, some [1, 1], some ⟨[1, 1], [⟨2, 0⟩]⟩⟩
    ⟨[1, 1], [⟨1, 1⟩]⟩ ⟨[1, 1], [⟨1, 1⟩]⟩ ⟨[1, 1], [⟨2, 0⟩]⟩
    ⟨[1, 1], [⟨3, 5⟩]⟩ ⟨[1, 1], [⟨1, 1⟩]⟩ ⟨1, 0⟩ ⟨1, 0⟩ rfl
    ⟨[1, 1], [⟨2, 0⟩]⟩ rfl (by decide) ⟨⟨[1, 1], [⟨2, 0⟩]⟩, none⟩
  exact ⟨h.1 _ (by decide), h.2.1 _ (by decide), h.2.2 _ ⟨[1, 1], [⟨0, 0⟩]⟩ (by decide)⟩

/-- Evaluation helper: the square root of a product of a nonnegative number
with itself. -/
theorem sqrt_eval {a b : ℝ} (hb : 0 ≤ b) (h : b * b = a) : Real.sqrt a = b := by
  rw [← h]
  exact Real.sqrt_mul_self hb

/-- Counterexample to claim C1: for the dense base weight `[[3, 4]]`
(out = 1, in = 2) with zero-delta factors, `update_layer` stores the
magnitude `[[3, 4]]` — the absolute value of each column, shape `(1, 2)` —
not a single per-output-channel entry `5.0`. -/
theorem claim_C1_counterexample :
    (DoraLinearLayer.init false : DoraLinearLayer ℝ).update_layer Real.sqrt
        ⟨[1, 2], [3, 4]⟩ ⟨[1, 2], [0, 0]⟩ ⟨[1, 1], [0]⟩ 1 false =
      some ⟨false, some 1, some [1, 2], some ⟨[1, 2], [3, 4]⟩⟩ ∧
    (⟨[1, 2], [3, 4]⟩ : Tensor ℝ).numel ≠ 1 ∧
    (⟨[1, 2], [3, 4]⟩ : Tensor ℝ) ≠ ⟨[1, 1], [5]⟩ := by
  refine ⟨?_, by decide, fun h => absurd (congrArg Tensor.shape h) (by decide)⟩
  norm_num [DoraLinearLayer.update_layer, DoraLinearLayer.init, normSeq,
    ptranspose, pyDim, Tensor.transpose01, Tensor.view, Tensor.ofFn, normDim1,
    Tensor.get, unflatten, flatIdx, List.range_succ, Option.bind_eq_bind]
  exact ⟨sqrt_eval (by norm_num) (by norm_num),
    sqrt_eval (by norm_num) (by norm_num)⟩

/-- Claim C1 as amended: with `fan_in_fan_out = False`, `update_layer` stores
a magnitude of shape `(1, c, 1, ..., 1)` with one entry per index of axis 1
of the base weight (the input-feature axis for a dense layer), each entry the
L2 norm of the slice `w[:, j, ...]` taken over axis 0 and all trailing axes —
not a per-output-channel norm. -/
theorem claim_C1_magnitude_axis1 {α : Type} [AddCommMonoid α] [Mul α]
    (sqrt : α → α) (self : DoraLinearLayer α) (w A B : Tensor α) (scaling : α)
    (cpu : Bool) {d0 c : Nat} {rest : List Nat}
    (hfan : self.fan_in_fan_out = false) (hsh : w.shape = d0 :: c :: rest)
    (hc : 0 < c) :
    ∀ l' mg, self.update_layer sqrt w A B scaling cpu = some l' →
      l'.weight = some mg →
      mg.shape = 1 :: c :: List.replicate rest.length 1 ∧
      ∀ j, j < c → mg.get (0 :: j :: List.replicate rest.length 0) =
        sqrt (∑ i in Finset.range d0, ∑ m in Finset.range rest.prod,
          w.get (i :: j :: unflatten rest m) * w.get (i :: j :: unflatten rest m)) := by
  intro l' mg hup hw
  unfold DoraLinearLayer.update_layer at hup
  rw [hfan] at hup
  simp only [ptranspose, Bool.false_eq_true, if_false] at hup
  have hlen : w.shape.length - 1 - 1 = rest.length := by rw [hsh]; rfl
  have hdnd : 1 ≤ w.shape.length - 1 := by rw [hsh]; simp
  obtain ⟨T, hT, hTwf, hTsh, hTget⟩ := normSeq_char sqrt hsh hc hdnd
  rw [hT] at hup
  simp only [Option.map_some'] at hup
  obtain rfl := Option.some.inj hup
  simp only at hw
  obtain rfl := Option.some.inj hw
  rw [hlen] at hTsh hTget
  exact ⟨hTsh, hTget⟩

/-- Witness for the amended claim C1 at the dense base weight `[[3, 4]]` over
`ℤ` (with `sqrt` the identity, so the stored entries are the column sums of
squares `9` and `16`). -/
theorem claim_C1_magnitude_axis1_witness :
    (⟨[1, 2], [9, 16]⟩ : Tensor ℤ).shape = 1 :: 2 :: List.replicate 0 1 ∧
    (⟨[1, 2], [9, 16]⟩ : Tensor ℤ).get (0 :: 1 :: List.replicate 0 0) =
      id (∑ i in Finset.range 1, ∑ m in Finset.range ([] : List Nat).prod,
        (⟨[1, 2], [3, 4]⟩ : Tensor ℤ).get (i :: 1 :: unflatten [] m) *
          (⟨[1, 2], [3, 4]⟩ : Tensor ℤ).get (i :: 1 :: unflatten [] m)) := by
  have h := claim_C1_magnitude_axis1 id (DoraLinearLayer.init false)
    (⟨[1, 2], [3, 4]⟩ : Tensor ℤ) ⟨[1, 2], [0, 0]⟩ ⟨[1, 1], [0]⟩ 1 false rfl rfl
    (by decide) ⟨false, some 1, some [1, 2], some ⟨[1, 2], [9, 16]⟩⟩
    ⟨[1, 2], [9, 16]⟩ (by decide) rfl
  exact ⟨h.1, h.2 1 (by decide)⟩

theorem pred_get {α : Type} [Zero α] {P : α → Prop} (hP0 : P 0)
    {t : Tensor α} (h : ∀ v ∈ t.data, P v) (ix : List Nat) : P (t.get ix) := by
  unfold Tensor.get
  rw [List.getD_eq_getElem?_getD]
  cases hg : t.data[flatIdx t.shape ix]? with
  | none => exact hP0
  | some a => exact h a (List.getElem?_mem hg)

theorem pred_transpose01 {α : Type} [Zero α] {P : α → Prop} (hP0 : P 0)
    {t : Tensor α} (h : ∀ v ∈ t.data, P v) :
    ∀ v ∈ t.transpose01.data, P v := by
  unfold Tensor.transpose01
  cases hs : t.shape with
  | nil => exact h
  | cons a rest =>
    cases rest with
    | nil => exact h
    | cons b rest2 =>
      intro v hv
      obtain ⟨n, _, rfl⟩ := List.mem_map.mp hv
      match unflatten (b :: a :: rest2) n with
      | [] => exact hP0
      | [_] => exact hP0
      | j :: i :: r => exact pred_get hP0 h _

theorem pred_view {α : Type} {P : α → Prop} {t u : Tensor α} {s : List Nat}
    (h : ∀ v ∈ t.data, P v) (hv : t.view s = some u) : ∀ v ∈ u.data, P v := by
  unfold Tensor.view at hv
  split_ifs at hv
  obtain rfl := Option.some.inj hv
  exact h

theorem normDim1_lit_nonneg {α : Type} [LinearOrderedCommRing α]
    {sqrt : α → α} (hsq : ∀ a, 0 ≤ sqrt a) (c Q : Nat) (D : List α) :
    ∀ v ∈ (normDim1 sqrt ⟨[c, Q], D⟩).data, 0 ≤ v := by
  have hred : normDim1 sqrt ⟨[c, Q], D⟩ = Tensor.ofFn [c, 1] fun ix =>
      match ix with
      | [i, _] => sqrt ((((List.range Q).map fun j =>
          (⟨[c, Q], D⟩ : Tensor α).get [i, j] *
            (⟨[c, Q], D⟩ : Tensor α).get [i, j])).sum)
      | _ => 0 := rfl
  rw [hred]
  intro v hv
  obtain ⟨k, _, rfl⟩ := List.mem_map.mp hv
  match unflatten [c, 1] k with
  | [] => exact le_refl 0
  | [_] => exact le_refl 0
  | _ :: _ :: _ :: _ => exact le_refl 0
  | [i, l] => exact hsq _

/-- Claim C3 as amended, positive part: in the embedding and convolution
forward paths every entry of the denominator `norm` is at least `eps`
(its norm part is nonnegative), so with a positive `eps` no entry is zero.
The dense path is excluded: it adds no epsilon and divides by the raw
composed weight (see the counterexample). -/
theorem claim_C3_eps_guard {α : Type} [LinearOrderedCommRing α]
    (sqrt detach : α → α) (hsq : ∀ a, 0 ≤ sqrt a) (eps : α) (heps : 0 < eps)
    (self : DoraLinearLayer α) (wn : Tensor α) :
    ∀ t, self.norm_denominator sqrt detach eps wn = some t →
      ∀ v ∈ t.data, eps ≤ v ∧ 0 < v := by
  intro t ht
  unfold DoraLinearLayer.norm_denominator at ht
  simp only [Option.bind_eq_bind] at ht
  obtain ⟨dnd, _, ht⟩ := Option.bind_eq_some.mp ht
  obtain ⟨n, hn, ht⟩ := Option.bind_eq_some.mp ht
  obtain rfl := Option.some.inj ht
  -- every entry of the normSeq output is nonnegative
  have hnonneg : ∀ v ∈ n.data, 0 ≤ v := by
    unfold normSeq at hn
    simp only [Option.bind_eq_bind] at hn
    obtain ⟨c, _, hn⟩ := Option.bind_eq_some.mp hn
    obtain ⟨flat, hflat, hn⟩ := Option.bind_eq_some.mp hn
    obtain ⟨n2, hn2, hn⟩ := Option.bind_eq_some.mp hn
    obtain rfl := Option.some.inj hn
    unfold Tensor.view at hflat
    split_ifs at hflat
    obtain rfl := Option.some.inj hflat
    exact pred_transpose01 (le_refl 0)
      (pred_view (normDim1_lit_nonneg hsq _ _ _) hn2)
  intro v hv
  obtain ⟨u, hu, rfl⟩ := List.mem_map.mp hv
  have h0u : 0 ≤ u := hnonneg u hu
  refine ⟨?_, lt_of_lt_of_le heps ?_⟩ <;>
    calc eps = 0 + eps := by rw [zero_add]
      _ ≤ u + eps := add_le_add_right h0u eps

/-- Counterexample to claim C3: in the dense forward the tensor the magnitude
is divided by is the detached composed weight itself — no per-channel norm
and no machine epsilon.  With base weight `[[1]]`, factors `[[1]], [[1]]` and
`scaling = -1` the composed weight collapses to `[[0]]`, and the divisor used
by the forward has the entry `0`, not something `≥ eps > 0`. -/
theorem claim_C3_counterexample :
    (⟨false, some 1, some [1, 1], some ⟨[1, 1], [1]⟩⟩ :
        DoraLinearLayer ℤ).dense_denominator id ⟨[1, 1], [1]⟩ ⟨[1, 1], [1]⟩
        (-1) ⟨[1, 1], [1]⟩ = some ⟨[1, 1], [0]⟩ ∧
    (⟨[1, 1], [0]⟩ : Tensor ℤ).get [0, 0] = 0 := by decide

/-- Witness for the amended claim C3: a concrete embedding/conv denominator
over `ℤ` (with `|·|` standing in for the square root) has every entry at
least `eps = 1`, in particular positive. -/
theorem claim_C3_eps_guard_witness : (1 : ℤ) ≤ 10 ∧ (0 : ℤ) < 10 :=
  claim_C3_eps_guard (fun a : ℤ => |a|) id (fun a => abs_nonneg a) 1 one_pos
    ⟨false, some 1, some [1, 1], some ⟨[1, 1], [1]⟩⟩ ⟨[1, 1], [3]⟩
    ⟨[1, 1], [10]⟩ (by decide) 10 (by decide)

theorem map_get_wf {α : Type} [Zero α] (f : α → α) {t : Tensor α}
    (hwf : t.WF) {ix : List Nat} (hix : validIdx t.shape ix = true) :
    (t.map f).get ix = f (t.get ix) := by
  unfold Tensor.map Tensor.get
  simp only
  have hlt : flatIdx t.shape ix < t.data.length := by
    rw [hwf]; exact flatIdx_lt hix
  rw [List.getD_eq_getElem?_getD, List.getElem?_map, List.getD_eq_getElem?_getD,
    List.getElem?_eq_getElem hlt]
  rfl

theorem bcast2_one_left (d n : Nat) : bcast2 [1, d] [n, d] = some [n, d] := by
  simp [bcast2, bcastRev, bdim_self, bdim_one_left]

theorem WF_map {α : Type} (f : α → α) {t : Tensor α} (h : t.WF) :
    (t.map f).WF := by
  unfold Tensor.WF Tensor.numel at h ⊢
  unfold Tensor.map
  simpa using h

/-- Claim C7: the embedding forward returns the pair
`(mag_norm_scale, result_dora)` with
`result = scale * (embedding-lookup @ B) * scaling` and
`scale = magnitude / (norm of the detached composed weight + eps)`, the norm
taken under the transposed `(vocab, features)` orientation so that there is
exactly one scale entry per embedding output feature `j`, reducing over the
vocabulary axis. -/
theorem claim_C7_embedding_forward {α : Type} [CommRing α] [Div α]
    (sqrt detach : α → α) (hdet0 : detach 0 = 0) (eps : α)
    (self : DoraLinearLayer α) (embedRes lora_A lora_B : Tensor α)
    (scaling : α) (blin : LinearBase α) {v dm nb : Nat}
    (hwsh : blin.weight.shape = [v, dm]) (hdm : 0 < dm)
    (hdnd : self.dora_num_dims = some 1) {mag : Tensor α}
    (hmag : self.weight = some mag) (hmagsh : mag.shape = [1, dm])
    {lw : Tensor α} (hlw : self.make_weight lora_A lora_B = some lw)
    (hlwsh : lw.shape = [v, dm])
    {t0 : Tensor α} (ht0 : mm embedRes lora_B = some t0)
    (ht0sh : t0.shape = [nb, dm]) :
    ∃ cw scale result,
      ewise (· + ·) blin.weight (lw.map (· * scaling)) = some cw ∧
      DoraEmbeddingLayer.forward sqrt detach eps self embedRes lora_A lora_B
        scaling blin = some (scale, result) ∧
      scale.shape = [1, dm] ∧
      (∀ j, j < dm → scale.get [0, j] =
        mag.get [0, j] /
          (sqrt (∑ i in Finset.range v,
            detach (cw.get [i, j]) * detach (cw.get [i, j])) + eps)) ∧
      (∀ b j, b < nb → j < dm →
        result.get [b, j] = scale.get [0, j] * t0.get [b, j] * scaling) := by
  -- the composed weight
  have hmapsh : (lw.map (· * scaling)).shape = [v, dm] := by
    rw [map_shape, hlwsh]
  have hbc1 : bcast2 blin.weight.shape (lw.map (· * scaling)).shape =
      some [v, dm] := by
    rw [hmapsh, hwsh]
    exact bcast2_self _
  have hcwe := ewise_eq (· + ·) blin.weight (lw.map (· * scaling)) hbc1
  set cw : Tensor α := Tensor.ofFn [v, dm] fun ix =>
    blin.weight.bget ix + (lw.map (· * scaling)).bget ix with hcwdef
  have hcwsh : cw.shape = [v, dm] := rfl
  -- the denominator: normSeq on the detached composed weight
  have hdetsh : (cw.map detach).shape = v :: dm :: [] := hcwsh
  obtain ⟨T, hT, hTwf, hTsh, hTget⟩ :=
    normSeq_char sqrt hdetsh hdm (le_refl 1)
  have hTsh2 : T.shape = [1, dm] := by simpa using hTsh
  have hTget2 : ∀ j, j < dm → T.get [0, j] =
      sqrt (∑ i in Finset.range v,
        detach (cw.get [i, j]) * detach (cw.get [i, j])) := by
    intro j hj
    have h1 := hTget j hj
    simp only [List.replicate, List.prod_nil, Finset.sum_range_one,
      unflatten] at h1
    rw [h1]
    congr 1
    refine Finset.sum_congr rfl fun i _ => ?_
    rw [map_get detach hdet0 cw [i, j]]
  have hnd : self.norm_denominator sqrt detach eps cw =
      some (T.map (· + eps)) := by
    unfold DoraLinearLayer.norm_denominator
    rw [hdnd]
    simp only [Option.bind_eq_bind, Option.some_bind]
    rw [hT]
    rfl
  set norm : Tensor α := T.map (· + eps) with hnormdef
  have hnormsh : norm.shape = [1, dm] := by rw [hnormdef, map_shape, hTsh2]
  have hnormget : ∀ j, j < dm → norm.get [0, j] = T.get [0, j] + eps := by
    intro j hj
    exact map_get_wf _ hTwf (by rw [hTsh2]; simp [validIdx, hj])
  -- the scale
  have hbc2 : bcast2 mag.shape norm.shape = some [1, dm] := by
    rw [hnormsh, hmagsh]
    exact bcast2_self _
  have hscalee := ewise_eq (· / ·) mag norm hbc2
  set scale : Tensor α := Tensor.ofFn [1, dm] fun ix =>
    mag.bget ix / norm.bget ix with hscaledef
  have hscalesh : scale.shape = [1, dm] := rfl
  have hscaleget : ∀ j, j < dm → scale.get [0, j] =
      mag.get [0, j] / norm.get [0, j] := by
    intro j hj
    have hvix : validIdx [1, dm] [0, j] = true := by simp [validIdx, hj]
    rw [hscaledef, Tensor.get_ofFn _ hvix,
      bget_of_valid (by rw [hmagsh]; exact hvix),
      bget_of_valid (by rw [hnormsh]; exact hvix)]
  -- the product with the lookup result
  have hbc3 : bcast2 scale.shape t0.shape = some [nb, dm] := by
    rw [hscalesh, ht0sh]
    exact bcast2_one_left dm nb
  have hrde := ewise_eq (· * ·) scale t0 hbc3
  set rd : Tensor α := Tensor.ofFn [nb, dm] fun ix =>
    scale.bget ix * t0.bget ix with hrddef
  refine ⟨cw, scale, rd.map (· * scaling), hcwe, ?_, hscalesh, ?_, ?_⟩
  · -- assembling the forward call
    unfold DoraEmbeddingLayer.forward
    rw [hlw, hmag]
    simp only [Option.bind_eq_bind, Option.some_bind]
    rw [hcwe]
    simp only [Option.some_bind]
    rw [hnd]
    simp only [Option.some_bind]
    rw [hscalee]
    simp only [Option.some_bind]
    rw [ht0]
    simp only [Option.some_bind]
    rw [hrde]
    rfl
  · intro j hj
    rw [hscaleget j hj, hnormget j hj, hTget2 j hj]
  · intro b j hb hj
    have hvix : validIdx [nb, dm] [b, j] = true := by simp [validIdx, hb, hj]
    have hrdwf : rd.WF := Tensor.WF_ofFn _ _
    rw [map_get_wf _ hrdwf (by exact hvix), hrddef, Tensor.get_ofFn _ hvix]
    have hsb : scale.bget [b, j] = scale.get [0, j] := by
      show scale.get (bIndex scale.shape [b, j]) = scale.get [0, j]
      rw [hscalesh]
      show scale.get (bIndex [1, dm] [b, j]) = scale.get [0, j]
      unfold bIndex
      norm_num [if_one_idx hj]
    have hst : t0.bget [b, j] = t0.get [b, j] :=
      bget_of_valid (by rw [ht0sh]; exact hvix)
    rw [hsb, hst]

/-- Witness for claim C7 at a concrete one-token embedding over `ℤ` (with
`|·|` standing in for the square root and `id` for value-level `detach`). -/
theorem claim_C7_embedding_forward_witness :
    ∃ cw scale result,
      ewise (· + ·) (⟨[1, 1], [3]⟩ : Tensor ℤ)
          ((⟨[1, 1], [1]⟩ : Tensor ℤ).map (· * 1)) = some cw ∧
      DoraEmbeddingLayer.forward (fun a : ℤ => |a|) id 1
          ⟨false, some 1, some [1, 1], some ⟨[1, 1], [2]⟩⟩ ⟨[1, 1], [7]⟩
          ⟨[1, 1], [1]⟩ ⟨[1, 1], [1]⟩ 1 ⟨⟨[1, 1], [3]⟩, none⟩ =
        some (scale, result) ∧
      scale.shape = [1, 1] ∧
      (∀ j, j < 1 → scale.get [0, j] =
        (⟨[1, 1], [2]⟩ : Tensor ℤ).get [0, j] /
          (|∑ i in Finset.range 1, id (cw.get [i, j]) * id (cw.get [i, j])| + 1)) ∧
      (∀ b j, b < 1 → j < 1 → result.get [b, j] =
        scale.get [0, j] * (⟨[1, 1], [7]⟩ : Tensor ℤ).get [b, j] * 1) :=
  claim_C7_embedding_forward (fun a : ℤ => |a|) id rfl 1
    ⟨false, some 1, some [1, 1], some ⟨[1, 1], [2]⟩⟩ ⟨[1, 1], [7]⟩
    ⟨[1, 1], [1]⟩ ⟨[1, 1], [1]⟩ 1 ⟨⟨[1, 1], [3]⟩, none⟩ rfl (by decide) rfl
    rfl rfl
    (show (⟨false, some 1, some [1, 1], some ⟨[1, 1], [2]⟩⟩ :
        DoraLinearLayer ℤ).make_weight ⟨[1, 1], [1]⟩ ⟨[1, 1], [1]⟩ =
      some ⟨[1, 1], [1]⟩ from by decide) rfl
    (show mm (⟨[1, 1], [7]⟩ : Tensor ℤ) ⟨[1, 1], [1]⟩ = some ⟨[1, 1], [7]⟩
      from by decide) rfl

set_option maxHeartbeats 8000000 in
/-- Counterexample to claim C6: at a 1x1x1x1 convolution with base weight 2,
factors 1, scaling 1 and base bias 1, the code's forward returns
`2 * (3 / (3 + eps))` — it never reads the base layer's bias — while the
claimed form returns `2 / (3 + eps) * 3 + 1` with the bias applied; the two
differ.  (The magnitude the code uses is also arranged per input channel,
shape `(1, ci, 1, 1)`; at this size the axes coincide, so the bias alone
separates the two forms.) -/
theorem claim_C6_counterexample :
    DoraConv2dLayer.forward Real.sqrt id (1 / 8388608)
        ⟨false, some 3, some [1, 1, 1, 1], some ⟨[1, 1, 1, 1], [2]⟩⟩
        ⟨[1, 1, 1, 1], [1]⟩ ⟨[1, 1, 1, 1], [1]⟩ ⟨[1, 1, 1, 1], [1]⟩ 1
        ⟨⟨[1, 1, 1, 1], [2]⟩, some ⟨[1], [1]⟩, (1, 1), (0, 0), (1, 1), 1⟩ =
      some ⟨[1, 1, 1, 1], [50331648 / 25165825]⟩ ∧
    convForwardClaimed Real.sqrt (1 / 8388608)
        ⟨false, some 3, some [1, 1, 1, 1], some ⟨[1, 1, 1, 1], [2]⟩⟩
        ⟨[1, 1, 1, 1], [1]⟩ ⟨[1, 1, 1, 1], [1]⟩ ⟨[1, 1, 1, 1], [1]⟩ 1
        ⟨⟨[1, 1, 1, 1], [2]⟩, some ⟨[1], [1]⟩, (1, 1), (0, 0), (1, 1), 1⟩ =
      some ⟨[1, 1, 1, 1], [75497473 / 25165825]⟩ ∧
    (⟨[1, 1, 1, 1], [(50331648 : ℝ) / 25165825]⟩ : Tensor ℝ) ≠
      ⟨[1, 1, 1, 1], [75497473 / 25165825]⟩ := by
  refine ⟨?_, ?_, ?_⟩
  · norm_num [DoraConv2dLayer.forward, DoraLinearLayer.make_weight,
      DoraLinearLayer.norm_denominator, flatten2, mm, normSeq, pyDim,
      Tensor.view, Tensor.transpose01, Tensor.ofFn, Tensor.map, normDim1,
      Tensor.get, Tensor.bget, bIndex, bcast2, bcastRev, bdim, ewise,
      conv2dF, conv2dEntry, unflatten, flatIdx, List.range_succ,
      List.replicate, Option.bind_eq_bind,
      show Real.sqrt 9 = 3 from sqrt_eval (by norm_num) (by norm_num)]
  · norm_num [convForwardClaimed, DoraLinearLayer.make_weight, flatten2, mm,
      Tensor.view, Tensor.ofFn, Tensor.map, Tensor.get, Tensor.bget, bIndex,
      bcast2, bcastRev, bdim, ewise, conv2dF, conv2dEntry, unflatten, flatIdx,
      List.range_succ, List.replicate, Option.bind_eq_bind,
      show Real.sqrt 9 = 3 from sqrt_eval (by norm_num) (by norm_num)]
  · intro h
    have hd := congrArg Tensor.data h
    simp only at hd
    have hv : (50331648 : ℝ) / 25165825 = 75497473 / 25165825 :=
      List.head_eq_of_cons_eq hd
    norm_num at hv

theorem bcast2_chan_right (o ci kh kw : Nat) :
    bcast2 [o, ci, kh, kw] [1, ci, 1, 1] = some [o, ci, kh, kw] := by
  simp [bcast2, bcastRev, bdim_self, bdim_one_right]

theorem bcast2_chan_left (o ci kh kw : Nat) :
    bcast2 [1, ci, 1, 1] [o, ci, kh, kw] = some [o, ci, kh, kw] := by
  simp [bcast2, bcastRev, bdim_self, bdim_one_left]

theorem bIndex_chan {ci a b c d : Nat} (hb : b < ci) :
    bIndex [1, ci, 1, 1] [a, b, c, d] = [0, b, 0, 0] := by
  unfold bIndex
  norm_num [if_one_idx hb]

theorem unflatten_pair {kh kw p q : Nat} (hq : q < kw) :
    unflatten [kh, kw] (p * kw + q) = [p, q] := by
  have h1 : [kw].prod = kw := by simp
  simp only [unflatten, h1, List.prod_nil]
  rw [mulAdd_div hq, mulAdd_mod hq]
  simp

/-- Claim C6 as amended: the convolution forward convolves `x` with the
reweighted composed weight `magnitude * (composedWeight / (norm + eps))`,
using the base layer's stride, padding, dilation and groups but **no bias**
(`F.conv2d` is called with `bias=None`); the norm in the denominator reduces
over axes 0, 2, 3 (all but the channel axis 1), so both the norm and the
stored magnitude carry one entry per *input* channel, broadcast as
`(1, in_channels, 1, 1)`. -/
theorem claim_C6_conv_forward {α : Type} [CommRing α] [Div α]
    (sqrt detach : α → α) (hdet0 : detach 0 = 0) (eps : α)
    (self : DoraLinearLayer α) (x lora_A lora_B : Tensor α) (scaling : α)
    (bconv : Conv2dBase α) {o ci kh kw : Nat}
    (hwsh : bconv.weight.shape = [o, ci, kh, kw]) (hci : 0 < ci)
    (hdnd : self.dora_num_dims = some 3) {mag : Tensor α}
    (hmag : self.weight = some mag) (hmagsh : mag.shape = [1, ci, 1, 1])
    {lw : Tensor α} (hlw : self.make_weight lora_A lora_B = some lw)
    (hlwsh : lw.shape = [o, ci, kh, kw]) :
    ∃ cw W,
      ewise (· + ·) bconv.weight (lw.map (· * scaling)) = some cw ∧
      DoraConv2dLayer.forward sqrt detach eps self x lora_A lora_B scaling
          bconv =
        conv2dF x W bconv.stride bconv.padding bconv.dilation bconv.groups ∧
      W.shape = [o, ci, kh, kw] ∧
      (∀ a b c d, a < o → b < ci → c < kh → d < kw →
        W.get [a, b, c, d] =
          mag.get [0, b, 0, 0] *
            (cw.get [a, b, c, d] /
              (sqrt (∑ i in Finset.range o, ∑ p in Finset.range kh,
                  ∑ q in Finset.range kw,
                  detach (cw.get [i, b, p, q]) *
                    detach (cw.get [i, b, p, q])) + eps))) := by
  -- the composed weight
  have hmapsh : (lw.map (· * scaling)).shape = [o, ci, kh, kw] := by
    rw [map_shape, hlwsh]
  have hbc1 : bcast2 bconv.weight.shape (lw.map (· * scaling)).shape =
      some [o, ci, kh, kw] := by
    rw [hmapsh, hwsh]
    exact bcast2_self _
  have hcwe := ewise_eq (· + ·) bconv.weight (lw.map (· * scaling)) hbc1
  set cw : Tensor α := Tensor.ofFn [o, ci, kh, kw] fun ix =>
    bconv.weight.bget ix + (lw.map (· * scaling)).bget ix with hcwdef
  have hcwsh : cw.shape = [o, ci, kh, kw] := rfl
  -- the denominator
  have hdetsh : (cw.map detach).shape = o :: ci :: [kh, kw] := hcwsh
  obtain ⟨T, hT, hTwf, hTsh, hTget⟩ :=
    normSeq_char sqrt hdetsh hci (show (1 : Nat) ≤ 3 by norm_num)
  have hTsh2 : T.shape = [1, ci, 1, 1] := by
    rw [hTsh]
    rfl
  have hTget2 : ∀ j, j < ci → T.get [0, j, 0, 0] =
      sqrt (∑ i in Finset.range o, ∑ p in Finset.range kh,
        ∑ q in Finset.range kw,
        detach (cw.get [i, j, p, q]) * detach (cw.get [i, j, p, q])) := by
    intro j hj
    have h1 := hTget j hj
    have hprod : ([kh, kw] : List Nat).prod = kh * kw := by simp
    rw [hprod] at h1
    have h2 : T.get (0 :: j :: List.replicate (3 - 1) 0) = T.get [0, j, 0, 0] := rfl
    rw [h2] at h1
    rw [h1]
    congr 1
    refine Finset.sum_congr rfl fun i _ => ?_
    rw [sum_range_mul (fun m => (cw.map detach).get (i :: j :: unflatten [kh, kw] m) *
      (cw.map detach).get (i :: j :: unflatten [kh, kw] m)) kh kw]
    refine Finset.sum_congr rfl fun p _ => Finset.sum_congr rfl fun q hq => ?_
    rw [unflatten_pair (Finset.mem_range.mp hq),
      map_get detach hdet0 cw [i, j, p, q]]
  have hnd : self.norm_denominator sqrt detach eps cw =
      some (T.map (· + eps)) := by
    unfold DoraLinearLayer.norm_denominator
    rw [hdnd]
    simp only [Option.bind_eq_bind, Option.some_bind]
    rw [hT]
    rfl
  set norm : Tensor α := T.map (· + eps) with hnormdef
  have hnormsh : norm.shape = [1, ci, 1, 1] := by rw [hnormdef, map_shape, hTsh2]
  have hnormget : ∀ j, j < ci → norm.get [0, j, 0, 0] =
      T.get [0, j, 0, 0] + eps := by
    intro j hj
    exact map_get_wf _ hTwf (by rw [hTsh2]; simp [validIdx, hj])
  -- the ratio and the final convolution weight
  have hbcr : bcast2 cw.shape norm.shape = some [o, ci, kh, kw] := by
    rw [hcwsh, hnormsh]
    exact bcast2_chan_right o ci kh kw
  have hratioe := ewise_eq (· / ·) cw norm hbcr
  set ratio : Tensor α := Tensor.ofFn [o, ci, kh, kw] fun ix =>
    cw.bget ix / norm.bget ix with hratiodef
  have hbcw : bcast2 mag.shape ratio.shape = some [o, ci, kh, kw] := by
    rw [hmagsh]
    exact bcast2_chan_left o ci kh kw
  have hWe := ewise_eq (· * ·) mag ratio hbcw
  set W : Tensor α := Tensor.ofFn [o, ci, kh, kw] fun ix =>
    mag.bget ix * ratio.bget ix with hWdef
  refine ⟨cw, W, hcwe, ?_, rfl, ?_⟩
  · unfold DoraConv2dLayer.forward
    rw [hlw, hmag]
    simp only [Option.bind_eq_bind, Option.some_bind]
    rw [hcwe]
    simp only [Option.some_bind]
    rw [hnd]
    simp only [Option.some_bind]
    rw [hratioe]
    simp only [Option.some_bind]
    rw [hWe]
    simp only [Option.some_bind]
  · intro a b c d ha hb hc hd
    have hvix : validIdx [o, ci, kh, kw] [a, b, c, d] = true := by
      simp [validIdx, ha, hb, hc, hd]
    rw [hWdef, Tensor.get_ofFn _ hvix]
    have hmagb : mag.bget [a, b, c, d] = mag.get [0, b, 0, 0] := by
      show mag.get (bIndex mag.shape [a, b, c, d]) = mag.get [0, b, 0, 0]
      rw [hmagsh, bIndex_chan hb]
    have hratiob : ratio.bget [a, b, c, d] = ratio.get [a, b, c, d] :=
      bget_of_valid (by exact hvix)
    rw [hmagb, hratiob, hratiodef, Tensor.get_ofFn _ hvix]
    have hcwb : cw.bget [a, b, c, d] = cw.get [a, b, c, d] :=
      bget_of_valid (by exact hvix)
    have hnormb : norm.bget [a, b, c, d] = norm.get [0, b, 0, 0] := by
      show norm.get (bIndex norm.shape [a, b, c, d]) = norm.get [0, b, 0, 0]
      rw [hnormsh, bIndex_chan hb]
    rw [hcwb, hnormb, hnormget b hb, hTget2 b hb]

/-- Witness for the amended claim C6 at a concrete 1x1x1x1 convolution over
`ℤ` (with `|·|` standing in for the square root and `id` for value-level
`detach`). -/
theorem claim_C6_conv_forward_witness :
    ∃ cw W,
      ewise (· + ·) (⟨[1, 1, 1, 1], [2]⟩ : Tensor ℤ)
          ((⟨[1, 1, 1, 1], [1]⟩ : Tensor ℤ).map (· * 1)) = some cw ∧
      DoraConv2dLayer.forward (fun a : ℤ => |a|) id 1
          ⟨false, some 3, some [1, 1, 1, 1], some ⟨[1, 1, 1, 1], [2]⟩⟩
          ⟨[1, 1, 1, 1], [1]⟩ ⟨[1, 1, 1, 1], [1]⟩ ⟨[1, 1, 1, 1], [1]⟩ 1
          ⟨⟨[1, 1, 1, 1], [2]⟩, none, (1, 1), (0, 0), (1, 1), 1⟩ =
        conv2dF ⟨[1, 1, 1, 1], [1]⟩ W (1, 1) (0, 0) (1, 1) 1 ∧
      W.shape = [1, 1, 1, 1] ∧
      (∀ a b c d, a < 1 → b < 1 → c < 1 → d < 1 →
        W.get [a, b, c, d] =
          (⟨[1, 1, 1, 1], [2]⟩ : Tensor ℤ).get [0, b, 0, 0] *
            (cw.get [a, b, c, d] /
              (|∑ i in Finset.range 1, ∑ p in Finset.range 1,
                  ∑ q in Finset.range 1,
                  id (cw.get [i, b, p, q]) * id (cw.get [i, b, p, q])| + 1))) :=
  claim_C6_conv_forward (fun a : ℤ => |a|) id rfl 1
    ⟨false, some 3, some [1, 1, 1, 1], some ⟨[1, 1, 1, 1], [2]⟩⟩
    ⟨[1, 1, 1, 1], [1]⟩ ⟨[1, 1, 1, 1], [1]⟩ ⟨[1, 1, 1, 1], [1]⟩ 1
    ⟨⟨[1, 1, 1, 1], [2]⟩, none, (1, 1), (0, 0), (1, 1), 1⟩ rfl (by decide) rfl
    rfl rfl
    (show (⟨false, some 3, some [1, 1, 1, 1], some ⟨[1, 1, 1, 1], [2]⟩⟩ :
        DoraLinearLayer ℤ).make_weight ⟨[1, 1, 1, 1], [1]⟩ ⟨[1, 1, 1, 1], [1]⟩ =
      some ⟨[1, 1, 1, 1], [1]⟩ from by decide) rfl

set_option maxHeartbeats 8000000 in
/-- Counterexample to claim C2: at base weight `[[2]]`, factors `[[1]]`,
`scaling = 1`, input `[[1]]`, stored magnitude `[[2]]` and zero bias, the
code's dense forward returns `[[0]]` (the additive-correction form
`(M - 1) * xW^T + M * lora * scaling` with `M = magnitude / composedWeight`
elementwise), while the claimed direct reweighted form returns
`[[2 * 3 / (3 + eps)]]`; the two differ. -/
theorem claim_C2_counterexample :
    (⟨false, some 1, some [1, 1], some ⟨[1, 1], [2]⟩⟩ :
        DoraLinearLayer ℝ).forward id ⟨[1, 1], [1]⟩ ⟨[1, 1], [1]⟩
        ⟨[1, 1], [1]⟩ 1 ⟨⟨[1, 1], [2]⟩, some ⟨[1], [0]⟩⟩ =
      some ⟨[1, 1], [0]⟩ ∧
    denseForwardClaimed Real.sqrt (1 / 8388608)
        ⟨false, some 1, some [1, 1], some ⟨[1, 1], [2]⟩⟩ ⟨[1, 1], [1]⟩
        ⟨[1, 1], [1]⟩ ⟨[1, 1], [1]⟩ 1 ⟨⟨[1, 1], [2]⟩, some ⟨[1], [0]⟩⟩ =
      some ⟨[1, 1], [50331648 / 25165825]⟩ ∧
    (⟨[1, 1], [(0 : ℝ)]⟩ : Tensor ℝ) ≠ ⟨[1, 1], [50331648 / 25165825]⟩ := by
  refine ⟨?_, ?_, ?_⟩
  · norm_num [DoraLinearLayer.forward, DoraLinearLayer.dense_denominator,
      DoraLinearLayer.make_weight, flatten2, mm, linearF, ptranspose, pyDim,
      Tensor.view, Tensor.ofFn, Tensor.map, Tensor.get, Tensor.bget, bIndex,
      bcast2, bcastRev, bdim, ewise, unflatten, flatIdx, List.range_succ,
      Option.bind_eq_bind]
  · norm_num [denseForwardClaimed, DoraLinearLayer.make_weight, flatten2, mm,
      linearF, Tensor.view, Tensor.ofFn, Tensor.map, Tensor.get, Tensor.bget,
      bIndex, bcast2, bcastRev, bdim, ewise, unflatten, flatIdx,
      List.range_succ, Option.bind_eq_bind,
      show Real.sqrt 9 = 3 from sqrt_eval (by norm_num) (by norm_num)]
  · intro h
    have hd := congrArg Tensor.data h
    simp only at hd
    have hv : (0 : ℝ) = 50331648 / 25165825 := List.head_eq_of_cons_eq hd
    norm_num at hv

theorem unflatten_two (o i n : Nat) : unflatten [o, i] n = [n / i, n % i] := by
  simp [unflatten, List.prod_cons, List.prod_nil]

theorem linearF_eq {α : Type} [Zero α] [Add α] [Mul α] {x w : Tensor α}
    {n k m : Nat} (hx : x.shape = [n, k]) (hw : w.shape = [m, k]) :
    linearF x w = some (Tensor.ofFn [n, m] fun ix =>
      match ix with
      | [b, j] => (((List.range k).map fun l => x.get [b, l] * w.get [j, l])).sum
      | _ => 0) := by
  unfold linearF
  rw [hx, hw]
  simp

theorem bIndex_row {i a b : Nat} (hb : b < i) :
    bIndex [1, i] [a, b] = [0, b] := by
  unfold bIndex
  norm_num [if_one_idx hb]

/-- Claim C2 as amended: the dense forward returns the additive-correction
delta `(M - 1) * (x W^T) + M * lora_B(lora_A(x)) * scaling` (to be added on
top of the base layer's output), where `M` is `magnitude` divided
**elementwise by the detached composed weight itself** (no norm, no epsilon)
and then reshaped by `view(-1, out_features)` — so `M[p, q]` reads the
entries at flat position `p * out + q` of the `(out, in)` quotient.  The
elementwise broadcast against the `(batch, out)` linear outputs only goes
through when `batch = in_features` (or one side is 1); the theorem takes
`batch = in_features = i`. -/
theorem claim_C2_dense_forward {α : Type} [CommRing α] [Div α]
    (detach : α → α) (self : DoraLinearLayer α) (x lora_A lora_B : Tensor α)
    (scaling : α) (blin : LinearBase α) {o i r : Nat}
    (hfan : self.fan_in_fan_out = false) (hwsh : blin.weight.shape = [o, i])
    (ho : 0 < o) (hi : 0 < i) (hxsh : x.shape = [i, i])
    (hA : lora_A.shape = [r, i]) (hB : lora_B.shape = [o, r])
    {mag : Tensor α} (hmag : self.weight = some mag)
    (hmagsh : mag.shape = [1, i]) {lw : Tensor α}
    (hlw : self.make_weight lora_A lora_B = some lw)
    (hlwsh : lw.shape = [o, i]) :
    ∃ xa lr cwD M res : Tensor α,
      linearF x lora_A = some xa ∧
      linearF xa lora_B = some lr ∧
      self.dense_denominator detach lora_A lora_B scaling blin.weight =
        some cwD ∧
      self.forward detach x lora_A lora_B scaling blin = some res ∧
      M.shape = [i, o] ∧
      (∀ p q, p < i → q < o → M.get [p, q] =
        mag.get [0, (p * o + q) % i] /
          cwD.get [(p * o + q) / i, (p * o + q) % i]) ∧
      res.shape = [i, o] ∧
      (∀ b j, b < i → j < o → res.get [b, j] =
        (M.get [b, j] - 1) *
            (∑ l in Finset.range i, x.get [b, l] * blin.weight.get [j, l]) +
          M.get [b, j] * lr.get [b, j] * scaling) := by
  -- the two LoRA linear applications
  have hxa := linearF_eq hxsh hA
  set xa : Tensor α := Tensor.ofFn [i, r] fun ix =>
    match ix with
    | [b, j] => (((List.range i).map fun l =>
        x.get [b, l] * lora_A.get [j, l])).sum
    | _ => 0 with hxadef
  have hlr := linearF_eq (show xa.shape = [i, r] from rfl) hB
  set lr : Tensor α := Tensor.ofFn [i, o] fun ix =>
    match ix with
    | [b, j] => (((List.range r).map fun l =>
        xa.get [b, l] * lora_B.get [j, l])).sum
    | _ => 0 with hlrdef
  -- the dense denominator (detached composed weight)
  have hmapsh : (lw.map (· * scaling)).shape = [o, i] := by rw [map_shape, hlwsh]
  have hbc0 : bcast2 blin.weight.shape (lw.map (· * scaling)).shape =
      some [o, i] := by
    rw [hmapsh, hwsh]
    exact bcast2_self _
  have hadded := ewise_eq (· + ·) blin.weight (lw.map (· * scaling)) hbc0
  set cw0 : Tensor α := Tensor.ofFn [o, i] fun ix =>
    blin.weight.bget ix + (lw.map (· * scaling)).bget ix with hcw0def
  have hdd : self.dense_denominator detach lora_A lora_B scaling blin.weight =
      some (cw0.map detach) := by
    unfold DoraLinearLayer.dense_denominator
    rw [hlw]
    simp only [Option.bind_eq_bind, Option.some_bind]
    rw [hadded]
    rfl
  set cwD : Tensor α := cw0.map detach with hcwDdef
  have hcwDsh : cwD.shape = [o, i] := rfl
  have hcwDwf : cwD.WF := WF_map _ (Tensor.WF_ofFn _ _)
  -- the elementwise quotient and its view
  have hbcbb : bcast2 mag.shape cwD.shape = some [o, i] := by
    rw [hmagsh, hcwDsh]
    exact bcast2_one_left i o
  have hbbe := ewise_eq (· / ·) mag cwD hbcbb
  set bb : Tensor α := Tensor.ofFn [o, i] fun ix =>
    mag.bget ix / cwD.bget ix with hbbdef
  have hbbprod : bb.shape.prod = o * i := by
    show ([o, i] : List Nat).prod = o * i
    simp
  have hbbdiv : bb.shape.prod / o = i := by
    rw [hbbprod, Nat.mul_div_cancel_left i ho]
  have hview : bb.view [bb.shape.prod / o, o] = some ⟨[i, o], bb.data⟩ := by
    rw [hbbdiv]
    unfold Tensor.view
    rw [if_pos]
    show ([i, o] : List Nat).prod = ([o, i] : List Nat).prod
    simp [Nat.mul_comm]
  set M : Tensor α := ⟨[i, o], bb.data⟩ with hMdef
  have hMwf : M.WF := by
    show bb.data.length = ([i, o] : List Nat).prod
    have := Tensor.length_data_ofFn [o, i] fun ix =>
      mag.bget ix / cwD.bget ix
    rw [hbbdef, this]
    simp [Nat.mul_comm]
  -- entries of M
  have hMget : ∀ p q, p < i → q < o → M.get [p, q] =
      mag.get [0, (p * o + q) % i] /
        cwD.get [(p * o + q) / i, (p * o + q) % i] := by
    intro p q hp hq
    have hflt : flatIdx ([i, o] : List Nat) [p, q] = p * o + q := by
      simp [flatIdx, List.prod_cons, List.prod_nil]
    have hlt : p * o + q < o * i := by
      calc p * o + q < p * o + o := Nat.add_lt_add_left hq _
        _ = (p + 1) * o := by ring
        _ ≤ i * o := Nat.mul_le_mul_right _ hp
        _ = o * i := Nat.mul_comm i o
    have hbbdata : bb.data = (List.range (o * i)).map fun n =>
        (fun ix => mag.bget ix / cwD.bget ix) (unflatten [o, i] n) := by
      rw [hbbdef]
      unfold Tensor.ofFn
      simp only [List.prod_cons, List.prod_nil, Nat.mul_one]
    show bb.data.getD (flatIdx M.shape [p, q]) 0 = _
    have hMsh : M.shape = [i, o] := rfl
    rw [hMsh, hflt, hbbdata, Tensor.getD_range_map hlt, unflatten_two]
    have hmod : (p * o + q) % i < i := Nat.mod_lt _ hi
    have hdivlt : (p * o + q) / i < o :=
      Nat.div_lt_of_lt_mul (by rw [Nat.mul_comm o i] at hlt; exact hlt)
    show mag.bget [(p * o + q) / i, (p * o + q) % i] /
        cwD.bget [(p * o + q) / i, (p * o + q) % i] = _
    have hmb : mag.bget [(p * o + q) / i, (p * o + q) % i] =
        mag.get [0, (p * o + q) % i] := by
      show mag.get (bIndex mag.shape _) = _
      rw [hmagsh, bIndex_row hmod]
    have hcb : cwD.bget [(p * o + q) / i, (p * o + q) % i] =
        cwD.get [(p * o + q) / i, (p * o + q) % i] :=
      bget_of_valid (by rw [hcwDsh]; simp [validIdx, hdivlt, hmod])
    rw [hmb, hcb]
  -- the base linear output and the two product terms
  have hbl := linearF_eq hxsh hwsh
  set base_lin : Tensor α := Tensor.ofFn [i, o] fun ix =>
    match ix with
    | [b, j] => (((List.range i).map fun l =>
        x.get [b, l] * blin.weight.get [j, l])).sum
    | _ => 0 with hbldef
  have hMmsh : (M.map (· - 1)).shape = [i, o] := rfl
  have ht1e := ewise_eq (· * ·) (M.map (· - 1)) base_lin
    (by rw [hMmsh]; show bcast2 [i, o] ([i, o] : List Nat) = some [i, o];
        exact bcast2_self _)
  set t1 : Tensor α := Tensor.ofFn [i, o] fun ix =>
    (M.map (· - 1)).bget ix * base_lin.bget ix with ht1def
  have ht2e := ewise_eq (· * ·) M lr
    (show bcast2 M.shape lr.shape = some [i, o] from bcast2_self _)
  set t2 : Tensor α := Tensor.ofFn [i, o] fun ix =>
    M.bget ix * lr.bget ix with ht2def
  have hrese := ewise_eq (· + ·) t1 (t2.map (· * scaling))
    (show bcast2 t1.shape (t2.map (· * scaling)).shape = some [i, o] from
      bcast2_self _)
  set res : Tensor α := Tensor.ofFn [i, o] fun ix =>
    t1.bget ix + (t2.map (· * scaling)).bget ix with hresdef
  refine ⟨xa, lr, cwD, M, res, hxa, hlr, hdd, ?_, rfl, hMget, rfl, ?_⟩
  · -- assembling the forward call
    unfold DoraLinearLayer.forward
    rw [hxa]
    simp only [Option.bind_eq_bind, Option.some_bind]
    rw [hlr]
    simp only [Option.some_bind]
    rw [hmag]
    simp only [Option.some_bind]
    rw [hdd]
    simp only [Option.some_bind]
    rw [hbbe]
    simp only [Option.some_bind]
    rw [hwsh]
    show (Option.bind (some o) fun d0 => _) = some res
    simp only [Option.some_bind]
    rw [hview]
    simp only [Option.some_bind]
    rw [hfan]
    show (Option.bind (linearF x (ptranspose false blin.weight)) fun _ => _) =
      some res
    simp only [ptranspose, Bool.false_eq_true, if_false]
    rw [hbl]
    simp only [Option.some_bind]
    rw [ht1e]
    simp only [Option.some_bind]
    rw [ht2e]
    simp only [Option.some_bind]
    rw [hrese]
  · -- entries of the result
    intro b j hb hj
    have hvij : validIdx ([i, o] : List Nat) [b, j] = true := by
      simp [validIdx, hb, hj]
    rw [hresdef, Tensor.get_ofFn _ hvij]
    have ht1b : t1.bget [b, j] = t1.get [b, j] := bget_of_valid hvij
    have ht2mb : (t2.map (· * scaling)).bget [b, j] =
        (t2.map (· * scaling)).get [b, j] := bget_of_valid hvij
    rw [ht1b, ht2mb, ht1def, Tensor.get_ofFn _ hvij,
      map_get_wf _ (Tensor.WF_ofFn _ _) hvij, Tensor.get_ofFn _ hvij]
    have hMmb : (M.map (· - 1)).bget [b, j] = M.get [b, j] - 1 := by
      rw [bget_of_valid hvij, map_get_wf _ hMwf hvij]
    have hblb : base_lin.bget [b, j] =
        ∑ l in Finset.range i, x.get [b, l] * blin.weight.get [j, l] := by
      rw [bget_of_valid hvij, hbldef, Tensor.get_ofFn _ hvij]
      exact listSum_range_map _ _
    have hMb : M.bget [b, j] = M.get [b, j] := bget_of_valid hvij
    have hlrb : lr.bget [b, j] = lr.get [b, j] := bget_of_valid hvij
    rw [hMmb, hblb, hMb, hlrb]

/-- Witness for the amended claim C2 at a concrete 1x1 dense layer over `ℤ`
(`id` stands in for value-level `detach`). -/
theorem claim_C2_dense_forward_witness :
    ∃ xa lr cwD M res : Tensor ℤ,
      linearF (⟨[1, 1], [1]⟩ : Tensor ℤ) ⟨[1, 1], [1]⟩ = some xa ∧
      linearF xa ⟨[1, 1], [1]⟩ = some lr ∧
      (⟨false, some 1, some [1, 1], some ⟨[1, 1], [2]⟩⟩ :
          DoraLinearLayer ℤ).dense_denominator id ⟨[1, 1], [1]⟩
          ⟨[1, 1], [1]⟩ 1 (⟨[1, 1], [2]⟩ : Tensor ℤ) = some cwD ∧
      (⟨false, some 1, some [1, 1], some ⟨[1, 1], [2]⟩⟩ :
          DoraLinearLayer ℤ).forward id ⟨[1, 1], [1]⟩ ⟨[1, 1], [1]⟩
          ⟨[1, 1], [1]⟩ 1 ⟨⟨[1, 1], [2]⟩, some ⟨[1], [0]⟩⟩ = some res ∧
      M.shape = [1, 1] ∧
      (∀ p q, p < 1 → q < 1 → M.get [p, q] =
        (⟨[1, 1], [2]⟩ : Tensor ℤ).get [0, (p * 1 + q) % 1] /
          cwD.get [(p * 1 + q) / 1, (p * 1 + q) % 1]) ∧
      res.shape = [1, 1] ∧
      (∀ b j, b < 1 → j < 1 → res.get [b, j] =
        (M.get [b, j] - 1) *
            (∑ l in Finset.range 1, (⟨[1, 1], [1]⟩ : Tensor ℤ).get [b, l] *
              (⟨[1, 1], [2]⟩ : Tensor ℤ).get [j, l]) +
          M.get [b, j] * lr.get [b, j] * 1) :=
  claim_C2_dense_forward id
    ⟨false, some 1, some [1, 1], some ⟨[1, 1], [2]⟩⟩ ⟨[1, 1], [1]⟩
    ⟨[1, 1], [1]⟩ ⟨[1, 1], [1]⟩ 1 ⟨⟨[1, 1], [2]⟩, some ⟨[1], [0]⟩⟩ rfl rfl
    (by decide) (by decide) rfl rfl rfl rfl rfl
    (show (⟨false, some 1, some [1, 1], some ⟨[1, 1], [2]⟩⟩ :
        DoraLinearLayer ℤ).make_weight ⟨[1, 1], [1]⟩ ⟨[1, 1], [1]⟩ =
      some ⟨[1, 1], [1]⟩ from by decide) rfl
